import Mathlib

/-!
The interval map of `CellAssessment.cpp` and `SecondAttempt.cpp`

Both files define a class template `interval_map<K, V>` over a `std::map<K, V>`.

* `std::map<K, V>` is embedded as an association list that is kept sorted by key.
  An iterator is the key of the node it designates (`none` is `end()`); nodes of a
  `std::map` are stable, so an iterator stays usable exactly as long as its node is
  in the container.  Every container operation that the standard leaves undefined
  (stepping before `begin()`, dereferencing `end()`, using an iterator whose node was
  erased) yields `none`, so the member functions below live in `Option`.
* `K` is any linearly ordered type, `V` any type with decidable equality.
-/

namespace StdMap

variable {K V : Type} [LinearOrder K]

/-- Tells whether iterator `it` may be used with container `l`: it is `end()` or its
node is still in `l`. -/
def valid (l : List (K × V)) : Option K → Bool
  | none => true
  | some k => l.any (fun e => decide (e.1 = k))

/-- Dereference `*it`: undefined for `end()` and for an erased node. -/
def deref (l : List (K × V)) : Option K → Option (K × V)
  | none => none
  | some k => l.find? (fun e => decide (e.1 = k))

/-- Member `begin()`. -/
def map_begin (l : List (K × V)) : Option K :=
  l.head?.map Prod.fst

/-- Member `end()`. -/
def map_end : Option K := none

/-- Member `upper_bound(k)`: the first node whose key is greater than `k`. -/
def upper_bound (l : List (K × V)) (k : K) : Option K :=
  (l.find? (fun e => decide (k < e.1))).map Prod.fst

/-- Member `lower_bound(k)`: the first node whose key is not less than `k`. -/
def lower_bound (l : List (K × V)) (k : K) : Option K :=
  (l.find? (fun e => decide (¬ e.1 < k))).map Prod.fst

/-- The nodes in front of iterator `it`. -/
def before (l : List (K × V)) : Option K → List (K × V)
  | none => l
  | some k => l.filter (fun e => decide (e.1 < k))

/-- The step `std::prev(it)` (also `--it`): the node in front of `it`; undefined when
`it` is `begin()` or is not usable. -/
def prev (l : List (K × V)) (it : Option K) : Option (Option K) :=
  if valid l it then (before l it).getLast?.map (fun e => some e.1) else none

/-- Ordered insertion of one node; a node with an equal key blocks the insertion and
keeps its mapped value, as `std::map::insert` does. -/
def insert_node : List (K × V) → K × V → List (K × V)
  | [], e => [e]
  | x :: xs, e =>
    if e.1 < x.1 then e :: x :: xs
    else if x.1 < e.1 then x :: insert_node xs e
    else x :: xs

/-- Member `insert(hint, value)`: the hint has to be a usable iterator and has no
influence on the result; returns the container and the iterator to the node with the
key of `value`. -/
def insert (l : List (K × V)) (hint : Option K) (e : K × V) :
    Option (List (K × V) × Option K) :=
  if valid l hint then some (insert_node l e, some e.1) else none

/-- Position order of iterators, `end()` being last. -/
def it_le : Option K → Option K → Bool
  | _, none => true
  | none, some _ => false
  | some a, some b => decide (a ≤ b)

/-- Tells whether the node with key `k` lies in the iterator range `[first, last)`. -/
def in_range (first last : Option K) (k : K) : Bool :=
  it_le first (some k) && !(it_le last (some k))

/-- Member `erase(first, last)`: removes the nodes of `[first, last)`, which has to be
a range of usable iterators; returns the container and `last`. -/
def erase_range (l : List (K × V)) (first last : Option K) :
    Option (List (K × V) × Option K) :=
  if valid l first && valid l last && it_le first last then
    some (l.filter (fun e => !(in_range first last e.1)), last)
  else none

/-- Member `erase(pos)`: removes the node at `pos`, which has to be dereferenceable;
returns the container and the iterator that followed `pos`. -/
def erase (l : List (K × V)) : Option K → Option (List (K × V) × Option K)
  | none => none
  | some k =>
    if valid l (some k) then
      some (l.filter (fun e => !(decide (e.1 = k))), upper_bound l k)
    else none

/-- The assignment `it->second = v`. -/
def set_second (l : List (K × V)) (it : Option K) (v : V) : Option (List (K × V)) :=
  match it with
  | none => none
  | some k =>
    if valid l it then some (l.map (fun e => if e.1 = k then (e.1, v) else e)) else none

/-- Keys strictly increasing (the ordering invariant of `std::map`, I1 of the design). -/
def keys_increasing (l : List (K × V)) : Prop :=
  l.Pairwise (fun a b => a.1 < b.1)

instance (l : List (K × V)) : Decidable (keys_increasing l) := by
  unfold keys_increasing; infer_instance

end StdMap

namespace CellAssessment

open StdMap

/-- The class `interval_map<K, V>` of `CellAssessment.cpp`: its two data members. -/
structure interval_map (K V : Type) where
  m_valBegin : V
  m_map : List (K × V)
deriving DecidableEq, Repr

variable {K V : Type} [LinearOrder K]

/-- Constructor `interval_map(V const& val) : m_valBegin(val) {}`. -/
def interval_map.ctor (val : V) : interval_map K V :=
  { m_valBegin := val, m_map := [] }

/-- Member `assign(keyBegin, keyEnd, val)`. -/
def interval_map.assign [DecidableEq V] (m : interval_map K V) (keyBegin keyEnd : K)
    (val : V) : Option (interval_map K V) :=
  if ¬ (keyBegin < keyEnd) then some m
  else do
    let itLowerLimit := upper_bound m.m_map keyBegin
    let itLowerLimitSame ←
      if itLowerLimit = map_begin m.m_map then some map_end else prev m.m_map itLowerLimit
    let itHigherLimit := upper_bound m.m_map keyEnd
    let noNodeAtKeyBegin ←
      if itLowerLimitSame = map_end ∨ itHigherLimit = map_begin m.m_map then some true
      else (deref m.m_map itLowerLimitSame).map (fun e => decide (e.1 < keyBegin))
    if noNodeAtKeyBegin then
      if val ≠ m.m_valBegin then do
        let r1 ← insert m.m_map itLowerLimit (keyBegin, val)
        let higherIsKeyEnd ←
          if itHigherLimit = map_end then some false
          else (deref r1.1 itHigherLimit).map (fun e => decide (e.1 = keyEnd))
        if ¬ higherIsKeyEnd then do
          let r2 ← insert r1.1 itHigherLimit (keyEnd, m.m_valBegin)
          some { m with m_map := r2.1 }
        else some { m with m_map := r1.1 }
      else some m
    else do
      let itEnd ← prev m.m_map itHigherLimit
      let lowerSame ← deref m.m_map itLowerLimitSame
      if lowerSame.2 = val then do
        let endNode ← deref m.m_map itEnd
        if endNode.1 = keyEnd then
          if endNode.2 ≠ m.m_valBegin then do
            let l1 ← set_second m.m_map itEnd m.m_valBegin
            some { m with m_map := l1 }
          else do
            let r1 ← erase_range m.m_map itLowerLimit itHigherLimit
            some { m with m_map := r1.1 }
        else some m
      else do
        let r1 ← erase_range m.m_map itLowerLimit itHigherLimit
        let r2 ← insert r1.1 itLowerLimit (keyBegin, val)
        let endNode ← deref r2.1 itEnd
        if endNode.1 ≠ keyEnd then do
          let r3 ← insert r2.1 itHigherLimit (keyEnd, endNode.2)
          some { m with m_map := r3.1 }
        else some { m with m_map := r2.1 }

/-- What a reference returned by `operator[]` designates: the member `m_valBegin` or
the mapped value of the node with the given key. -/
inductive place (K : Type) where
  | valBegin : place K
  | mapped : K → place K
deriving DecidableEq, Repr

/-- Member `operator[]`, up to the object the returned reference designates. -/
def interval_map.operator_subscript_place (m : interval_map K V) (key : K) :
    Option (place K) :=
  let it := upper_bound m.m_map key
  if it = map_begin m.m_map then some place.valBegin
  else do
    let it1 ← prev m.m_map it
    let e ← deref m.m_map it1
    some (place.mapped e.1)

/-- Reading through a reference returned by `operator[]`. -/
def interval_map.read (m : interval_map K V) : place K → Option V
  | place.valBegin => some m.m_valBegin
  | place.mapped k => (deref m.m_map (some k)).map Prod.snd

/-- Member `operator[]`: the value looked up for `key`. -/
def interval_map.operator_subscript (m : interval_map K V) (key : K) : Option V :=
  (m.operator_subscript_place key).bind m.read

/-- Member `operator[]` as a step on the object: it is a `const` member, and the
object is handed back as it was received. -/
def interval_map.operator_subscript_run (m : interval_map K V) (key : K) :
    Option (V × interval_map K V) :=
  (m.operator_subscript key).map (fun v => (v, m))

/-- Tells whether no node of `l` carries the value of its left neighbour, `v` being the
value to the left of the first node (I2 of the design). -/
def canonical_from [DecidableEq V] (v : V) : List (K × V) → Bool
  | [] => true
  | e :: es => decide (e.2 ≠ v) && canonical_from e.2 es

/-- Canonical form of an object: no two consecutive breakpoints with equal values, and
the first breakpoint differs from `m_valBegin`. -/
def interval_map.canonical [DecidableEq V] (m : interval_map K V) : Prop :=
  canonical_from m.m_valBegin m.m_map = true

instance [DecidableEq V] (m : interval_map K V) : Decidable m.canonical := by
  unfold interval_map.canonical; infer_instance

/-- A finite sequence of calls `assign(b, e, v)`, applied in order. -/
def interval_map.assign_all [DecidableEq V] (m : interval_map K V) :
    List (K × K × V) → Option (interval_map K V)
  | [] => some m
  | c :: cs => (m.assign c.1 c.2.1 c.2.2).bind (fun s => s.assign_all cs)

/-- The pointwise reference of the design, in its own words: the value written by the
last call whose range contains `k`, or the background `a` if there is no such call. -/
def reference_value (a : V) (calls : List (K × K × V)) (k : K) : V :=
  match calls.reverse.find? (fun c => decide (c.1 ≤ k ∧ k < c.2.1)) with
  | some c => c.2.2
  | none => a

/-- The local iterators of `assign` after line 44 and the outcome of the test of the
`if` at line 46. -/
structure assign_locals (K : Type) where
  itLowerLimit : Option K
  itLowerLimitSame : Option K
  itHigherLimit : Option K
  noNodeAtKeyBegin : Bool
deriving DecidableEq, Repr

/-- Lines 41-46 of `assign`: the three iterators and the test of the `if`. -/
def interval_map.assign_limits (m : interval_map K V) (keyBegin keyEnd : K) :
    Option (assign_locals K) := do
  let itLowerLimit := upper_bound m.m_map keyBegin
  let itLowerLimitSame ←
    if itLowerLimit = map_begin m.m_map then some map_end else prev m.m_map itLowerLimit
  let itHigherLimit := upper_bound m.m_map keyEnd
  let noNodeAtKeyBegin ←
    if itLowerLimitSame = map_end ∨ itHigherLimit = map_begin m.m_map then some true
    else (deref m.m_map itLowerLimitSame).map (fun e => decide (e.1 < keyBegin))
  some
    { itLowerLimit := itLowerLimit, itLowerLimitSame := itLowerLimitSame,
      itHigherLimit := itHigherLimit, noNodeAtKeyBegin := noNodeAtKeyBegin }

/-- Lines 47-51 of `assign`: the branch taken when the test at line 46 holds. -/
def interval_map.assign_if_branch [DecidableEq V] (m : interval_map K V)
    (s : assign_locals K) (keyBegin keyEnd : K) (val : V) : Option (interval_map K V) :=
  if val ≠ m.m_valBegin then do
    let r1 ← insert m.m_map s.itLowerLimit (keyBegin, val)
    let higherIsKeyEnd ←
      if s.itHigherLimit = map_end then some false
      else (deref r1.1 s.itHigherLimit).map (fun e => decide (e.1 = keyEnd))
    if ¬ higherIsKeyEnd then do
      let r2 ← insert r1.1 s.itHigherLimit (keyEnd, m.m_valBegin)
      some { m with m_map := r2.1 }
    else some { m with m_map := r1.1 }
  else some m

/-- Lines 54-69 of `assign`: the `else` branch of the test at line 46. -/
def interval_map.assign_else_branch [DecidableEq V] (m : interval_map K V)
    (s : assign_locals K) (keyBegin keyEnd : K) (val : V) : Option (interval_map K V) := do
  let itEnd ← prev m.m_map s.itHigherLimit
  let lowerSame ← deref m.m_map s.itLowerLimitSame
  if lowerSame.2 = val then do
    let endNode ← deref m.m_map itEnd
    if endNode.1 = keyEnd then
      if endNode.2 ≠ m.m_valBegin then do
        let l1 ← set_second m.m_map itEnd m.m_valBegin
        some { m with m_map := l1 }
      else do
        let r1 ← erase_range m.m_map s.itLowerLimit s.itHigherLimit
        some { m with m_map := r1.1 }
    else some m
  else do
    let r1 ← erase_range m.m_map s.itLowerLimit s.itHigherLimit
    let r2 ← insert r1.1 s.itLowerLimit (keyBegin, val)
    let endNode ← deref r2.1 itEnd
    if endNode.1 ≠ keyEnd then do
      let r3 ← insert r2.1 s.itHigherLimit (keyEnd, endNode.2)
      some { m with m_map := r3.1 }
    else some { m with m_map := r2.1 }

/-- Tells whether the call `assign(keyBegin, keyEnd, val)` erases nodes in its overwrite
branch: the guard of line 38 is passed, a breakpoint lies exactly at `keyBegin`
(`else` branch of line 53) with a value other than `val` (`else` branch of line 64), and
some breakpoint has its key in `(keyBegin, keyEnd]`, the range removed by the `erase` of
line 65.  Lines 66-68 then use the iterators `itLowerLimit` and `itEnd` of erased nodes,
which the language leaves undefined. -/
def interval_map.erases_in_overwrite [DecidableEq V] (m : interval_map K V)
    (keyBegin keyEnd : K) (val : V) : Bool :=
  decide (keyBegin < keyEnd) &&
  m.m_map.any (fun e => decide (e.1 = keyBegin ∧ e.2 ≠ val)) &&
  m.m_map.any (fun x => decide (keyBegin < x.1 ∧ x.1 ≤ keyEnd))

/-- Tells whether some call of the sequence, in the state the calls before it have
produced, erases nodes in its overwrite branch. -/
def interval_map.erases_in_overwrite_all [DecidableEq V] (m : interval_map K V) :
    List (K × K × V) → Bool
  | [] => false
  | c :: cs =>
    m.erases_in_overwrite c.1 c.2.1 c.2.2 ||
      (match m.assign c.1 c.2.1 c.2.2 with
        | some s => s.erases_in_overwrite_all cs
        | none => false)

end CellAssessment

namespace SecondAttempt

open StdMap

/-- The class `interval_map<K, V>` of `SecondAttempt.cpp`: its one data member. -/
structure interval_map (K V : Type) where
  m_map : List (K × V)
deriving DecidableEq, Repr

variable {K V : Type} [LinearOrder K]

/-- Constructor of `SecondAttempt.cpp`: inserts `(lowest, val)` into the empty map, with
hint `end()`.  `lowest` stands for `std::numeric_limits<K>::lowest()`. -/
def interval_map.ctor (lowest : K) (val : V) : interval_map K V :=
  { m_map := insert_node [] (lowest, val) }

/-- Member `assign_two(keyBegin, keyEnd, val)`.  `value_init` stands for the
value-initialised `std::pair<K, V>()` that `beginExtra` and `endExtra` start from. -/
def interval_map.assign_two [DecidableEq V] (value_init : K × V) (m : interval_map K V)
    (keyBegin keyEnd : K) (val : V) : Option (interval_map K V) :=
  if ¬ (keyBegin < keyEnd) then some m
  else do
    -- lines 36-46: itBegin, beginHasExtra, beginExtra
    let itBegin0 := lower_bound m.m_map keyBegin
    let beginIsAbove ←
      if itBegin0 = map_end then some false
      else (deref m.m_map itBegin0).map (fun e => decide (keyBegin < e.1))
    let b ←
      if beginIsAbove ∧ itBegin0 ≠ map_begin m.m_map then do
        let it ← prev m.m_map itBegin0
        let e ← deref m.m_map it
        some (true, it, (e.1, e.2))
      else some (false, itBegin0, value_init)
    let beginHasExtra : Bool := b.1
    let itBegin1 : Option K := b.2.1
    let beginExtra : K × V := b.2.2
    -- lines 48-57: itEnd, endHasExtra, endExtra
    let itEnd0 := lower_bound m.m_map keyEnd
    let endIsAbove ←
      if itEnd0 = map_end then some false
      else (deref m.m_map itEnd0).map (fun e => decide (keyEnd < e.1))
    let x ←
      if endIsAbove then do
        let extraIt ← prev m.m_map itEnd0
        let e ← deref m.m_map extraIt
        some (true, (keyEnd, e.2))
      else some (false, value_init)
    let endHasExtra0 : Bool := x.1
    let endExtra : K × V := x.2
    -- lines 65-77: insertMid
    let insertMid ←
      if beginHasExtra then some (decide (¬ beginExtra.2 = val))
      else if itBegin1 ≠ map_begin m.m_map then do
        let beforeMid ← prev m.m_map itBegin1
        let e ← deref m.m_map beforeMid
        some (decide (¬ e.2 = val))
      else some true
    -- lines 80-87
    let y ←
      if endHasExtra0 then
        if (insertMid ∧ endExtra.2 = val) ∨ (¬ insertMid ∧ endExtra.2 = beginExtra.2) then
          some (false, m.m_map, itEnd0)
        else some (true, m.m_map, itEnd0)
      else do
        let dropEnd ←
          if itEnd0 = map_end then some false
          else (deref m.m_map itEnd0).map (fun e =>
            decide ((insertMid ∧ e.2 = val) ∨ (¬ insertMid ∧ e.2 = beginExtra.2)))
        if dropEnd then do
          let r ← erase m.m_map itEnd0
          some (false, r.1, r.2)
        else some (false, m.m_map, itEnd0)
    let endHasExtra : Bool := y.1
    let itEnd1 : Option K := y.2.2
    -- lines 89-95
    let r1 ← erase_range y.2.1 itBegin1 itEnd1
    let r2 ← if beginHasExtra then insert r1.1 r1.2 beginExtra else some r1
    let r3 ← if insertMid then insert r2.1 r2.2 (keyBegin, val) else some r2
    let r4 ← if endHasExtra then insert r3.1 r3.2 endExtra else some r3
    some { m_map := r4.1 }

/-- A finite sequence of calls `assign_two(b, e, v)`, applied in order. -/
def interval_map.assign_two_all [DecidableEq V] (value_init : K × V) (m : interval_map K V) :
    List (K × K × V) → Option (interval_map K V)
  | [] => some m
  | c :: cs =>
    (m.assign_two value_init c.1 c.2.1 c.2.2).bind (fun s => s.assign_two_all value_init cs)

/-- The value the entries of `m_map` give to key `k`: the mapped value of the entry with
the greatest key at most `k`.  `SecondAttempt.cpp` has no lookup member; this is the
reading of its representation, with the sentinel entry in the place of `m_valBegin`. -/
def interval_map.value_at (m : interval_map K V) (k : K) : Option V :=
  ((m.m_map.filter (fun e => decide (e.1 ≤ k))).getLast?).map Prod.snd

/-- Tells whether no two consecutive entries carry equal values. -/
def no_equal_neighbours [DecidableEq V] : List (K × V) → Bool
  | [] => true
  | [_] => true
  | a :: b :: rest => decide (a.2 ≠ b.2) && no_equal_neighbours (b :: rest)

/-- The sentinel invariant: `m_map` is sorted, not empty, and its first entry has key
`lowest`. -/
def interval_map.has_sentinel (lowest : K) (m : interval_map K V) : Prop :=
  keys_increasing m.m_map ∧ map_begin m.m_map = some lowest

instance (lowest : K) (m : interval_map K V) : Decidable (m.has_sentinel lowest) := by
  unfold interval_map.has_sentinel; infer_instance

/-- Lines 36-46 of `assign_two`: `beginHasExtra`, `itBegin` and `beginExtra`. -/
def interval_map.assign_two_begin (value_init : K × V) (m : interval_map K V)
    (keyBegin : K) : Option (Bool × Option K × (K × V)) := do
  let itBegin0 := lower_bound m.m_map keyBegin
  let beginIsAbove ←
    if itBegin0 = map_end then some false
    else (deref m.m_map itBegin0).map (fun e => decide (keyBegin < e.1))
  if beginIsAbove ∧ itBegin0 ≠ map_begin m.m_map then do
    let it ← prev m.m_map itBegin0
    let e ← deref m.m_map it
    some (true, it, (e.1, e.2))
  else some (false, itBegin0, value_init)

/-- Lines 48-57 of `assign_two`: `endHasExtra` and `endExtra` (`itEnd` is
`lower_bound(keyEnd)`). -/
def interval_map.assign_two_end (value_init : K × V) (m : interval_map K V)
    (keyEnd : K) : Option (Bool × (K × V)) := do
  let itEnd0 := lower_bound m.m_map keyEnd
  let endIsAbove ←
    if itEnd0 = map_end then some false
    else (deref m.m_map itEnd0).map (fun e => decide (keyEnd < e.1))
  if endIsAbove then do
    let extraIt ← prev m.m_map itEnd0
    let e ← deref m.m_map extraIt
    some (true, (keyEnd, e.2))
  else some (false, value_init)

/-- Lines 65-77 of `assign_two`: `insertMid`. -/
def interval_map.assign_two_mid [DecidableEq V] (m : interval_map K V)
    (b : Bool × Option K × (K × V)) (val : V) : Option Bool :=
  if b.1 then some (decide (¬ b.2.2.2 = val))
  else if b.2.1 ≠ map_begin m.m_map then do
    let beforeMid ← prev m.m_map b.2.1
    let e ← deref m.m_map beforeMid
    some (decide (¬ e.2 = val))
  else some true

/-- Lines 80-87 of `assign_two`: the final `endHasExtra`, the map and `itEnd`. -/
def interval_map.assign_two_conflicts [DecidableEq V] (m : interval_map K V)
    (b : Bool × Option K × (K × V)) (x : Bool × (K × V)) (insertMid : Bool) (keyEnd : K)
    (val : V) : Option (Bool × List (K × V) × Option K) :=
  let itEnd0 := lower_bound m.m_map keyEnd
  if x.1 then
    if (insertMid ∧ x.2.2 = val) ∨ (¬ insertMid ∧ x.2.2 = b.2.2.2) then
      some (false, m.m_map, itEnd0)
    else some (true, m.m_map, itEnd0)
  else do
    let dropEnd ←
      if itEnd0 = map_end then some false
      else (deref m.m_map itEnd0).map (fun e =>
        decide ((insertMid ∧ e.2 = val) ∨ (¬ insertMid ∧ e.2 = b.2.2.2)))
    if dropEnd then do
      let r ← erase m.m_map itEnd0
      some (false, r.1, r.2)
    else some (false, m.m_map, itEnd0)

/-- Lines 89-95 of `assign_two`: the erasure of the range and the insertions. -/
def assign_two_splice (b : Bool × Option K × (K × V)) (x : Bool × (K × V))
    (insertMid : Bool) (y : Bool × List (K × V) × Option K) (keyBegin : K) (val : V) :
    Option (interval_map K V) := do
  let r1 ← erase_range y.2.1 b.2.1 y.2.2
  let r2 ← if b.1 then insert r1.1 r1.2 b.2.2 else some r1
  let r3 ← if insertMid then insert r2.1 r2.2 (keyBegin, val) else some r2
  let r4 ← if y.1 then insert r3.1 r3.2 x.2 else some r3
  some { m_map := r4.1 }

end SecondAttempt

/-! ## The sorted association list: facts used below -/

namespace StdMap

variable {K V : Type} [LinearOrder K]

theorem upper_bound_nil (k : K) : upper_bound ([] : List (K × V)) k = none := rfl

theorem upper_bound_cons (x : K × V) (xs : List (K × V)) (k : K) :
    upper_bound (x :: xs) k = if k < x.1 then some x.1 else upper_bound xs k := by
  unfold upper_bound
  by_cases h : k < x.1 <;> simp [List.find?_cons, h]

theorem keys_increasing_cons {x : K × V} {xs : List (K × V)} :
    keys_increasing (x :: xs) ↔ (∀ e ∈ xs, x.1 < e.1) ∧ keys_increasing xs := by
  unfold keys_increasing
  exact List.pairwise_cons

theorem upper_bound_mem {l : List (K × V)} {k y : K} (h : upper_bound l k = some y) :
    k < y ∧ ∃ e ∈ l, e.1 = y := by
  induction l with
  | nil => simp [upper_bound_nil] at h
  | cons x xs ih =>
    rw [upper_bound_cons] at h
    by_cases hk : k < x.1
    · simp [hk] at h
      exact ⟨h ▸ hk, x, List.mem_cons_self _ _, h⟩
    · simp [hk] at h
      obtain ⟨h1, e, he, h2⟩ := ih h
      exact ⟨h1, e, List.mem_cons_of_mem _ he, h2⟩

theorem valid_upper_bound (l : List (K × V)) (k : K) : valid l (upper_bound l k) = true := by
  cases h : upper_bound l k with
  | none => rfl
  | some y =>
    obtain ⟨_, e, he, h2⟩ := upper_bound_mem h
    simp only [valid, List.any_eq_true, decide_eq_true_eq]
    exact ⟨e, he, h2⟩

theorem upper_bound_eq_begin_iff {l : List (K × V)} (hl : keys_increasing l) (k : K) :
    upper_bound l k = map_begin l ↔ ∀ e ∈ l, ¬ e.1 ≤ k := by
  cases l with
  | nil => simp [upper_bound_nil, map_begin]
  | cons x xs =>
    rw [keys_increasing_cons] at hl
    rw [upper_bound_cons]
    by_cases hk : k < x.1
    · simp only [hk, if_true, map_begin, List.head?_cons, Option.map_some', true_iff]
      intro e he
      rcases List.mem_cons.1 he with rfl | he
      · exact not_le.2 hk
      · exact not_le.2 (lt_trans hk (hl.1 e he))
    · simp only [hk, if_false, map_begin, List.head?_cons, Option.map_some']
      constructor
      · intro h
        obtain ⟨_, e, he, h2⟩ := upper_bound_mem h
        exact absurd (hl.1 e he) (by rw [h2]; exact lt_irrefl _)
      · intro h
        exact absurd (not_lt.1 hk) (h x (List.mem_cons_self _ _))

theorem before_upper_bound {l : List (K × V)} (hl : keys_increasing l) (k : K) :
    before l (upper_bound l k) = l.filter (fun e => decide (e.1 ≤ k)) := by
  induction l with
  | nil => simp [upper_bound_nil, before]
  | cons x xs ih =>
    rw [keys_increasing_cons] at hl
    rw [upper_bound_cons]
    by_cases hk : k < x.1
    · simp only [hk, if_true, before]
      have h1 : (x :: xs).filter (fun e => decide (e.1 < x.1)) = [] := by
        rw [List.filter_eq_nil_iff]
        intro e he
        rcases List.mem_cons.1 he with rfl | he
        · simp
        · simpa using le_of_lt (hl.1 e he)
      have h2 : (x :: xs).filter (fun e => decide (e.1 ≤ k)) = [] := by
        rw [List.filter_eq_nil_iff]
        intro e he
        rcases List.mem_cons.1 he with rfl | he
        · simpa using hk
        · simpa using lt_trans hk (hl.1 e he)
      rw [h1, h2]
    · have hx : x.1 ≤ k := not_lt.1 hk
      simp only [hk, if_false]
      rw [List.filter_cons_of_pos (by simpa using hx), ← ih hl.2]
      cases h : upper_bound xs k with
      | none => simp [before]
      | some y =>
        obtain ⟨_, e, he, h2⟩ := upper_bound_mem h
        have : x.1 < y := h2 ▸ hl.1 e he
        simp [before, this]

theorem deref_of_mem {l : List (K × V)} (hl : keys_increasing l) {e : K × V} (he : e ∈ l) :
    deref l (some e.1) = some e := by
  induction l with
  | nil => simp at he
  | cons x xs ih =>
    rw [keys_increasing_cons] at hl
    simp only [deref, List.find?_cons]
    rcases List.mem_cons.1 he with rfl | he
    · simp
    · have : x.1 ≠ e.1 := ne_of_lt (hl.1 e he)
      simp only [this, decide_False]
      exact ih hl.2 he

theorem getLast_greatest {l : List (K × V)} (hl : keys_increasing l) {z : K × V}
    (h : l.getLast? = some z) : z ∈ l ∧ ∀ e ∈ l, e.1 ≤ z.1 := by
  obtain ⟨ys, rfl⟩ := List.getLast?_eq_some_iff.1 h
  refine ⟨by simp, ?_⟩
  intro e he
  unfold keys_increasing at hl
  rw [List.pairwise_append] at hl
  rcases List.mem_append.1 he with he | he
  · exact le_of_lt (hl.2.2 e he z (by simp))
  · rw [List.mem_singleton.1 he]

theorem key_unique {l : List (K × V)} (hl : keys_increasing l) {a b : K × V}
    (ha : a ∈ l) (hb : b ∈ l) (h : a.1 = b.1) : a = b := by
  have h1 := deref_of_mem hl ha
  have h2 := deref_of_mem hl hb
  rw [h, h2] at h1
  exact (Option.some.inj h1).symm

theorem keys_increasing_filter {l : List (K × V)} (hl : keys_increasing l)
    (p : K × V → Bool) : keys_increasing (l.filter p) :=
  List.Pairwise.filter p hl

/-- In a sorted container the last node with key at most `k` is the one with the
greatest such key. -/
theorem getLast_filter_le {l : List (K × V)} (hl : keys_increasing l) {k : K} {e : K × V}
    (he : e ∈ l) (hek : e.1 ≤ k) (hmax : ∀ x ∈ l, x.1 ≤ k → x.1 ≤ e.1) :
    (l.filter (fun x => decide (x.1 ≤ k))).getLast? = some e := by
  have heF : e ∈ l.filter (fun x => decide (x.1 ≤ k)) := by
    simp [List.mem_filter, he, hek]
  cases hz : (l.filter (fun x => decide (x.1 ≤ k))).getLast? with
  | none =>
    rw [List.getLast?_eq_none_iff] at hz
    rw [hz] at heF
    simp at heF
  | some z =>
    obtain ⟨hzF, hge⟩ := getLast_greatest (keys_increasing_filter hl _) hz
    have hzl : z ∈ l ∧ z.1 ≤ k := by simpa [List.mem_filter] using hzF
    have : z = e := key_unique hl hzl.1 he (le_antisymm (hmax z hzl.1 hzl.2) (hge e heF))
    rw [this]

/-- A sorted container with a node of key at most `k` has one with the greatest such
key. -/
theorem exists_greatest_le {l : List (K × V)} (hl : keys_increasing l) {k : K}
    (h : ∃ x ∈ l, x.1 ≤ k) :
    ∃ e ∈ l, e.1 ≤ k ∧ ∀ x ∈ l, x.1 ≤ k → x.1 ≤ e.1 := by
  obtain ⟨x, hx, hxk⟩ := h
  have hxF : x ∈ l.filter (fun x => decide (x.1 ≤ k)) := by
    simp [List.mem_filter, hx, hxk]
  cases hz : (l.filter (fun x => decide (x.1 ≤ k))).getLast? with
  | none =>
    rw [List.getLast?_eq_none_iff] at hz
    rw [hz] at hxF
    simp at hxF
  | some z =>
    obtain ⟨hzF, hge⟩ := getLast_greatest (keys_increasing_filter hl _) hz
    have hzl : z ∈ l ∧ z.1 ≤ k := by simpa [List.mem_filter] using hzF
    refine ⟨z, hzl.1, hzl.2, ?_⟩
    intro y hy hyk
    exact hge y (by simp [List.mem_filter, hy, hyk])

end StdMap

/-! ## `CellAssessment.cpp`: `operator[]` -/

namespace CellAssessment

open StdMap

variable {K V : Type} [LinearOrder K]

theorem subscript_place_of_greatest (m : interval_map K V) (k : K)
    (h : keys_increasing m.m_map) {e : K × V} (he : e ∈ m.m_map) (hek : e.1 ≤ k)
    (hmax : ∀ x ∈ m.m_map, x.1 ≤ k → x.1 ≤ e.1) :
    m.operator_subscript_place k = some (place.mapped e.1) := by
  have hne : ¬ upper_bound m.m_map k = map_begin m.m_map := by
    rw [upper_bound_eq_begin_iff h]
    intro hall
    exact hall e he hek
  unfold interval_map.operator_subscript_place
  simp only [hne, if_false]
  simp [prev, valid_upper_bound, before_upper_bound h, getLast_filter_le h he hek hmax,
    deref_of_mem h he]

theorem subscript_place_of_none (m : interval_map K V) (k : K)
    (h : keys_increasing m.m_map) (hall : ∀ x ∈ m.m_map, ¬ x.1 ≤ k) :
    m.operator_subscript_place k = some place.valBegin := by
  unfold interval_map.operator_subscript_place
  simp [(upper_bound_eq_begin_iff h k).2 hall]

theorem subscript_of_greatest (m : interval_map K V) (k : K)
    (h : keys_increasing m.m_map) {e : K × V} (he : e ∈ m.m_map) (hek : e.1 ≤ k)
    (hmax : ∀ x ∈ m.m_map, x.1 ≤ k → x.1 ≤ e.1) :
    m.operator_subscript k = some e.2 := by
  unfold interval_map.operator_subscript
  rw [subscript_place_of_greatest m k h he hek hmax]
  simp [interval_map.read, deref_of_mem h he]

theorem subscript_of_none (m : interval_map K V) (k : K)
    (h : keys_increasing m.m_map) (hall : ∀ x ∈ m.m_map, ¬ x.1 ≤ k) :
    m.operator_subscript k = some m.m_valBegin := by
  unfold interval_map.operator_subscript
  rw [subscript_place_of_none m k h hall]
  rfl

/-! ## `CellAssessment.cpp`: `assign` on a freshly constructed object -/

theorem assign_ctor_same [DecidableEq V] (a : V) (keyBegin keyEnd : K)
    (h : keyBegin < keyEnd) :
    (interval_map.ctor a : interval_map K V).assign keyBegin keyEnd a =
      some { m_valBegin := a, m_map := [] } := by
  simp [interval_map.assign, interval_map.ctor, upper_bound, map_begin, map_end, h]

theorem assign_ctor_other [DecidableEq V] (a : V) (keyBegin keyEnd : K) (val : V)
    (h : keyBegin < keyEnd) (hv : val ≠ a) :
    (interval_map.ctor a : interval_map K V).assign keyBegin keyEnd val =
      some { m_valBegin := a, m_map := [(keyBegin, val), (keyEnd, a)] } := by
  simp [interval_map.assign, interval_map.ctor, upper_bound, map_begin, map_end, h, hv,
    StdMap.insert, valid, insert_node, not_lt_of_lt h]

end CellAssessment

/-! ## The claims about `interval_map` -/

section Claims

open StdMap CellAssessment

variable {K V : Type} [LinearOrder K]

/-- Claim C1, evaluated on the code: `assign` does not write the value over the whole
interval.  The state with background `A` and breakpoints `(1, B), (3, A)` has strictly
increasing keys and is canonical; `assign(0, 5, C)` finds no breakpoint at key `0`,
inserts `(0, C)` and `(5, A)` and leaves the breakpoints at `1` and `3` in place, so the
lookup at key `1`, inside `[0, 5)`, still gives `B`. -/
theorem C1_assign_keeps_inner_breakpoints :
    keys_increasing (interval_map.mk 'A' [((1 : Int), 'B'), (3, 'A')]).m_map ∧
    (interval_map.mk 'A' [((1 : Int), 'B'), (3, 'A')]).canonical ∧
    (interval_map.mk 'A' [((1 : Int), 'B'), (3, 'A')]).assign 0 5 'C' =
      some (interval_map.mk 'A' [(0, 'C'), (1, 'B'), (3, 'A'), (5, 'A')]) ∧
    (interval_map.mk 'A' [((0 : Int), 'C'), (1, 'B'), (3, 'A'), (5, 'A')]).operator_subscript 1
      = some 'B' := by
  decide

/-- Claim C2, evaluated on the code: `assign` changes a lookup outside the interval.
The state with background `A` and breakpoints `(1, B), (10, A)` has strictly increasing
keys and is canonical and gives `B` at key `5`; `assign(3, 5, C)` inserts `(3, C)` and
`(5, A)`, the background instead of the value that held at `keyEnd`, so the lookup at
key `5` itself, outside `[3, 5)`, becomes `A`. -/
theorem C2_assign_changes_value_at_keyEnd :
    keys_increasing (interval_map.mk 'A' [((1 : Int), 'B'), (10, 'A')]).m_map ∧
    (interval_map.mk 'A' [((1 : Int), 'B'), (10, 'A')]).canonical ∧
    (interval_map.mk 'A' [((1 : Int), 'B'), (10, 'A')]).operator_subscript 5 = some 'B' ∧
    (interval_map.mk 'A' [((1 : Int), 'B'), (10, 'A')]).assign 3 5 'C' =
      some (interval_map.mk 'A' [(1, 'B'), (3, 'C'), (5, 'A'), (10, 'A')]) ∧
    (interval_map.mk 'A' [((1 : Int), 'B'), (3, 'C'), (5, 'A'), (10, 'A')]).operator_subscript 5
      = some 'A' := by
  decide

/-- Claim C3, evaluated on the code: canonical form is not kept.  On a fresh object with
background `A`, `assign(1, 3, B)` followed by `assign(0, 5, B)` ends with the breakpoints
`(0, B), (1, B), (3, A), (5, A)`: two pairs of consecutive breakpoints carry equal
values. -/
theorem C3_assign_breaks_canonical_form :
    (interval_map.ctor 'A' : interval_map Int Char).assign_all [(1, 3, 'B'), (0, 5, 'B')] =
      some (interval_map.mk 'A' [(0, 'B'), (1, 'B'), (3, 'A'), (5, 'A')]) ∧
    ¬ (interval_map.mk 'A' [((0 : Int), 'B'), (1, 'B'), (3, 'A'), (5, 'A')]).canonical := by
  decide

/-- Claim C4, evaluated on the code: the lookups after a sequence of calls differ from
the pointwise reference.  On a fresh object with background `A`, `assign(1, 5, B)`
followed by `assign(2, 4, A)` leaves the breakpoints `(1, B), (5, A)` (the second call
finds no breakpoint at key `2`, sees that the value is the background and does nothing),
so the lookup at key `2` gives `B` where the reference gives `A`. -/
theorem C4_lookup_differs_from_reference :
    (interval_map.ctor 'A' : interval_map Int Char).assign_all [(1, 5, 'B'), (2, 4, 'A')] =
      some (interval_map.mk 'A' [(1, 'B'), (5, 'A')]) ∧
    (interval_map.mk 'A' [((1 : Int), 'B'), (5, 'A')]).operator_subscript 2 = some 'B' ∧
    reference_value 'A' [((1 : Int), (5 : Int), 'B'), (2, 4, 'A')] 2 = 'A' := by
  decide

/-- Claim C5: for a state with strictly increasing keys, `operator[](k)` returns the
mapped value of the breakpoint with the greatest key at most `k`; the reference it
returns designates `m_valBegin` exactly when no breakpoint has a key at most `k` (in
particular for the empty collection), and the value is then `m_valBegin`; the lookup
always returns and hands the object back unchanged. -/
theorem C5_lookup_greatest_breakpoint (m : interval_map K V) (k : K)
    (h : keys_increasing m.m_map) :
    (∀ e ∈ m.m_map, e.1 ≤ k → (∀ x ∈ m.m_map, x.1 ≤ k → x.1 ≤ e.1) →
      m.operator_subscript_place k = some (place.mapped e.1) ∧
      m.operator_subscript k = some e.2) ∧
    (m.operator_subscript_place k = some place.valBegin ↔ ∀ x ∈ m.m_map, ¬ x.1 ≤ k) ∧
    ((∀ x ∈ m.m_map, ¬ x.1 ≤ k) → m.operator_subscript k = some m.m_valBegin) ∧
    (∃ v, m.operator_subscript_run k = some (v, m)) := by
  refine ⟨?_, ?_, ?_, ?_⟩
  · intro e he hek hmax
    exact ⟨subscript_place_of_greatest m k h he hek hmax,
      subscript_of_greatest m k h he hek hmax⟩
  · constructor
    · intro hp x hx hxk
      obtain ⟨e, he, hek, hmax⟩ := exists_greatest_le h ⟨x, hx, hxk⟩
      rw [subscript_place_of_greatest m k h he hek hmax] at hp
      cases hp
    · exact subscript_place_of_none m k h
  · exact subscript_of_none m k h
  · by_cases hex : ∃ x ∈ m.m_map, x.1 ≤ k
    · obtain ⟨e, he, hek, hmax⟩ := exists_greatest_le h hex
      exact ⟨e.2, by
        simp [interval_map.operator_subscript_run, subscript_of_greatest m k h he hek hmax]⟩
    · have hall : ∀ x ∈ m.m_map, ¬ x.1 ≤ k := fun x hx hxk => hex ⟨x, hx, hxk⟩
      exact ⟨m.m_valBegin, by
        simp [interval_map.operator_subscript_run, subscript_of_none m k h hall]⟩

/-- Claim C5 at the state with background `A` and breakpoints `(1, B), (3, A)`, key `2`. -/
theorem C5_lookup_greatest_breakpoint_witness :
    keys_increasing (interval_map.mk 'A' [((1 : Int), 'B'), (3, 'A')]).m_map ∧
    ((∀ e ∈ (interval_map.mk 'A' [((1 : Int), 'B'), (3, 'A')]).m_map, e.1 ≤ 2 →
        (∀ x ∈ (interval_map.mk 'A' [((1 : Int), 'B'), (3, 'A')]).m_map, x.1 ≤ 2 → x.1 ≤ e.1) →
        (interval_map.mk 'A' [((1 : Int), 'B'), (3, 'A')]).operator_subscript_place 2
          = some (place.mapped e.1) ∧
        (interval_map.mk 'A' [((1 : Int), 'B'), (3, 'A')]).operator_subscript 2 = some e.2) ∧
      ((interval_map.mk 'A' [((1 : Int), 'B'), (3, 'A')]).operator_subscript_place 2
          = some place.valBegin ↔
        ∀ x ∈ (interval_map.mk 'A' [((1 : Int), 'B'), (3, 'A')]).m_map, ¬ x.1 ≤ 2) ∧
      ((∀ x ∈ (interval_map.mk 'A' [((1 : Int), 'B'), (3, 'A')]).m_map, ¬ x.1 ≤ 2) →
        (interval_map.mk 'A' [((1 : Int), 'B'), (3, 'A')]).operator_subscript 2 = some 'A') ∧
      (∃ v, (interval_map.mk 'A' [((1 : Int), 'B'), (3, 'A')]).operator_subscript_run 2
        = some (v, interval_map.mk 'A' [((1 : Int), 'B'), (3, 'A')]))) :=
  ⟨by decide,
    C5_lookup_greatest_breakpoint (interval_map.mk 'A' [((1 : Int), 'B'), (3, 'A')]) 2
      (by decide)⟩

/-- Claim C6: when `keyBegin < keyEnd` does not hold, `assign` of `CellAssessment.cpp`
returns with `m_valBegin` and `m_map` exactly as they were, hence with every lookup
unchanged, and `assign_two` of `SecondAttempt.cpp` returns with its `m_map` exactly as
it was; neither call fails. -/
theorem C6_empty_range_is_noop [DecidableEq V] (m : interval_map K V)
    (m2 : SecondAttempt.interval_map K V) (value_init : K × V) (keyBegin keyEnd : K)
    (val : V) (h : ¬ keyBegin < keyEnd) :
    m.assign keyBegin keyEnd val = some m ∧
    (∀ k, (m.assign keyBegin keyEnd val).bind (fun s => s.operator_subscript k) =
      m.operator_subscript k) ∧
    m2.assign_two value_init keyBegin keyEnd val = some m2 := by
  have h1 : m.assign keyBegin keyEnd val = some m := by
    simp [interval_map.assign, h]
  refine ⟨h1, ?_, ?_⟩
  · intro k
    rw [h1]
    rfl
  · simp [SecondAttempt.interval_map.assign_two, h]

/-- Claim C6 at the inverted range `assign(3, 1, C)`, on the state with breakpoints
`(1, B), (3, A)` and on the sentinel map with entries `(-128, A), (1, B)`. -/
theorem C6_empty_range_is_noop_witness :
    ¬ ((3 : Int) < 1) ∧
    ((interval_map.mk 'A' [((1 : Int), 'B'), (3, 'A')]).assign 3 1 'C' =
        some (interval_map.mk 'A' [((1 : Int), 'B'), (3, 'A')]) ∧
      (∀ k, ((interval_map.mk 'A' [((1 : Int), 'B'), (3, 'A')]).assign 3 1 'C').bind
          (fun s => s.operator_subscript k) =
        (interval_map.mk 'A' [((1 : Int), 'B'), (3, 'A')]).operator_subscript k) ∧
      (SecondAttempt.interval_map.mk [((-128 : Int), 'A'), (1, 'B')]).assign_two
          (0, Char.ofNat 0) 3 1 'C' =
        some (SecondAttempt.interval_map.mk [((-128 : Int), 'A'), (1, 'B')])) :=
  ⟨by decide,
    C6_empty_range_is_noop (interval_map.mk 'A' [((1 : Int), 'B'), (3, 'A')])
      (SecondAttempt.interval_map.mk [((-128 : Int), 'A'), (1, 'B')]) (0, Char.ofNat 0) 3 1 'C'
      (by decide)⟩

/-- Claim C7, evaluated on the code: `assign` is not idempotent.  On a fresh object with
background `A`, one call `assign(1, 3, B)` gives the breakpoints `(1, B), (3, A)`; the
second call finds the breakpoint at `keyBegin` already carrying `B` and the breakpoint
at `keyEnd` carrying the background, and erases the latter, leaving `(1, B)` alone, so
the lookup at key `3` changes from `A` to `B`. -/
theorem C7_assign_twice_differs_from_once :
    (interval_map.ctor 'A' : interval_map Int Char).assign_all [(1, 3, 'B')] =
      some (interval_map.mk 'A' [(1, 'B'), (3, 'A')]) ∧
    (interval_map.ctor 'A' : interval_map Int Char).assign_all [(1, 3, 'B'), (1, 3, 'B')] =
      some (interval_map.mk 'A' [(1, 'B')]) ∧
    (interval_map.mk 'A' [((1 : Int), 'B'), (3, 'A')]).operator_subscript 3 = some 'A' ∧
    (interval_map.mk 'A' [((1 : Int), 'B')]).operator_subscript 3 = some 'B' := by
  decide

/-- Claim C8: after `interval_map(a)` and `assign(keyBegin, keyEnd, val)` with
`keyBegin < keyEnd`, the call returns, the breakpoint collection is exactly
`(keyBegin, val), (keyEnd, a)` when `val` differs from `a` and empty when it equals `a`,
and `operator[](k)` is `val` for `keyBegin <= k < keyEnd` and `a` for every other key. -/
theorem C8_first_assign_on_fresh_map [DecidableEq V] (a : V) (keyBegin keyEnd : K) (val : V)
    (h : keyBegin < keyEnd) :
    ∃ m, (interval_map.ctor a : interval_map K V).assign keyBegin keyEnd val = some m ∧
      m.m_valBegin = a ∧
      m.m_map = (if val = a then [] else [(keyBegin, val), (keyEnd, a)]) ∧
      ∀ k, m.operator_subscript k = some (if keyBegin ≤ k ∧ k < keyEnd then val else a) := by
  by_cases hv : val = a
  · subst hv
    refine ⟨_, assign_ctor_same val keyBegin keyEnd h, rfl, by simp, ?_⟩
    intro k
    rw [subscript_of_none _ k (by simp [keys_increasing]) (by simp)]
    simp
  · refine ⟨_, assign_ctor_other a keyBegin keyEnd val h hv, rfl, by simp [hv], ?_⟩
    intro k
    have hs : keys_increasing ([(keyBegin, val), (keyEnd, a)] : List (K × V)) := by
      simp [keys_increasing, h]
    by_cases h1 : keyBegin ≤ k
    · by_cases h2 : k < keyEnd
      · have := subscript_of_greatest
          ({ m_valBegin := a, m_map := [(keyBegin, val), (keyEnd, a)] } : interval_map K V) k hs
          (e := (keyBegin, val)) (by simp) h1
          (by
            intro x hx hxk
            simp only [List.mem_cons, List.mem_singleton, List.not_mem_nil, or_false] at hx
            rcases hx with rfl | rfl
            · exact le_refl _
            · exact absurd hxk (not_le.2 h2))
        simpa [h1, h2] using this
      · have h3 : keyEnd ≤ k := not_lt.1 h2
        have := subscript_of_greatest
          ({ m_valBegin := a, m_map := [(keyBegin, val), (keyEnd, a)] } : interval_map K V) k hs
          (e := (keyEnd, a)) (by simp) h3
          (by
            intro x hx _
            simp only [List.mem_cons, List.mem_singleton, List.not_mem_nil, or_false] at hx
            rcases hx with rfl | rfl
            · exact le_of_lt h
            · exact le_refl _)
        simpa [h1, h2] using this
    · have := subscript_of_none
        ({ m_valBegin := a, m_map := [(keyBegin, val), (keyEnd, a)] } : interval_map K V) k hs
        (by
          intro x hx
          simp only [List.mem_cons, List.mem_singleton, List.not_mem_nil, or_false] at hx
          rcases hx with rfl | rfl
          · exact h1
          · exact fun hc => h1 (le_trans (le_of_lt h) hc))
      simpa [h1] using this

/-- Claim C8 at the sample of `main`: background `A`, `assign(1, 3, B)`. -/
theorem C8_first_assign_on_fresh_map_witness :
    (1 : Int) < 3 ∧
    ∃ m, (interval_map.ctor 'A' : interval_map Int Char).assign 1 3 'B' = some m ∧
      m.m_valBegin = 'A' ∧
      m.m_map = (if 'B' = 'A' then [] else [(1, 'B'), (3, 'A')]) ∧
      ∀ k, m.operator_subscript k = some (if 1 ≤ k ∧ k < 3 then 'B' else 'A') :=
  ⟨by decide, C8_first_assign_on_fresh_map 'A' 1 3 'B' (by decide)⟩

/-- The loop of `main`: after `assign(1, 3, B)` on background `A`, the keys `-3` to `5`
give `A A A A B B A A A`. -/
theorem main_sample_output :
    ((interval_map.ctor 'A' : interval_map Int Char).assign 1 3 'B').bind
      (fun m => ([-3, -2, -1, 0, 1, 2, 3, 4, 5] : List Int).mapM m.operator_subscript) =
    some ['A', 'A', 'A', 'A', 'B', 'B', 'A', 'A', 'A'] := by
  decide

/-- Claim C9, evaluated on the code: re-assigning the value a range already has changes
the representation.  The state with background `0` and breakpoints `(5, 1), (10, 0)`
(reached by `assign(5, 10, 1)` on a fresh object) has strictly increasing keys, is
canonical and gives `1` on all of `[7, 8)`; `assign(7, 8, 1)` finds no breakpoint at key
`7`, compares the value with the background only and inserts `(7, 1)` and `(8, 0)`,
ending with four breakpoints instead of the two `(5, 1), (10, 0)`. -/
theorem C9_reassign_same_value_adds_breakpoints :
    (interval_map.ctor 0 : interval_map Int Int).assign 5 10 1 =
      some (interval_map.mk 0 [(5, 1), (10, 0)]) ∧
    keys_increasing (interval_map.mk (0 : Int) [((5 : Int), 1), (10, 0)]).m_map ∧
    (interval_map.mk (0 : Int) [((5 : Int), 1), (10, 0)]).canonical ∧
    (∀ k : Int, 7 ≤ k → k < 8 →
      (interval_map.mk (0 : Int) [((5 : Int), 1), (10, 0)]).operator_subscript k = some 1) ∧
    (interval_map.mk (0 : Int) [((5 : Int), 1), (10, 0)]).assign 7 8 1 =
      some (interval_map.mk 0 [(5, 1), (7, 1), (8, 0), (10, 0)]) ∧
    (interval_map.mk (0 : Int) [((5 : Int), 1), (7, 1), (8, 0), (10, 0)]).m_map ≠
      (interval_map.mk (0 : Int) [((5 : Int), 1), (10, 0)]).m_map := by
  refine ⟨by decide, by decide, by decide, ?_, by decide, by decide⟩
  intro k h1 h2
  have hk : k = 7 := by omega
  subst hk
  decide

/-- Claim C10, evaluated on the code: overlapping assignments of the same value do not
merge.  On a fresh object with background `A`, `assign(0, 5, X)` followed by
`assign(3, 8, X)` ends with the breakpoints `(0, X), (3, X), (5, A), (8, A)` instead of
`(0, X), (8, A)`: breakpoints remain at keys `3` and `5`, and the lookup at key `5`,
inside `[3, 8)`, gives `A`. -/
theorem C10_overlapping_assigns_do_not_merge :
    (interval_map.ctor 'A' : interval_map Int Char).assign_all [(0, 5, 'X'), (3, 8, 'X')] =
      some (interval_map.mk 'A' [(0, 'X'), (3, 'X'), (5, 'A'), (8, 'A')]) ∧
    (interval_map.mk 'A' [((0 : Int), 'X'), (3, 'X'), (5, 'A'), (8, 'A')]).m_map ≠
      [(0, 'X'), (8, 'A')] ∧
    (interval_map.mk 'A' [((0 : Int), 'X'), (3, 'X'), (5, 'A'), (8, 'A')]).operator_subscript 5
      = some 'A' := by
  decide

end Claims

/-! ## `CellAssessment.cpp`: `assign` split at the test of line 46 -/

namespace CellAssessment

open StdMap

variable {K V : Type} [LinearOrder K]

/-- Past its guard, `assign` is its lines 41-46 followed by one of its two branches. -/
theorem assign_eq_branches [DecidableEq V] (m : interval_map K V) (keyBegin keyEnd : K)
    (val : V) :
    m.assign keyBegin keyEnd val =
      if ¬ (keyBegin < keyEnd) then some m
      else (m.assign_limits keyBegin keyEnd).bind (fun s =>
        if s.noNodeAtKeyBegin then m.assign_if_branch s keyBegin keyEnd val
        else m.assign_else_branch s keyBegin keyEnd val) := by
  by_cases h : keyBegin < keyEnd
  · by_cases h1 : upper_bound m.m_map keyBegin = map_begin m.m_map
    · simp [interval_map.assign, interval_map.assign_limits, interval_map.assign_if_branch,
        h, h1]
    · cases hp : prev m.m_map (upper_bound m.m_map keyBegin) with
      | none => simp [interval_map.assign, interval_map.assign_limits, h, h1, hp]
      | some its =>
        by_cases h3 : its = map_end ∨ upper_bound m.m_map keyEnd = map_begin m.m_map
        · simp [interval_map.assign, interval_map.assign_limits,
            interval_map.assign_if_branch, h, h1, hp, h3]
        · cases hd : deref m.m_map its with
          | none => simp [interval_map.assign, interval_map.assign_limits, h, h1, hp, h3, hd]
          | some e =>
            by_cases h4 : e.1 < keyBegin
            · simp [interval_map.assign, interval_map.assign_limits,
                interval_map.assign_if_branch, h, h1, hp, h3, hd, h4]
            · simp [interval_map.assign, interval_map.assign_limits,
                interval_map.assign_else_branch, h, h1, hp, h3, hd, h4]
  · simp [interval_map.assign, h]

end CellAssessment

/-! ## The sorted association list: insertion, erasure, `lower_bound` -/

namespace StdMap

variable {K V : Type} [LinearOrder K]

theorem mem_insert_node {l : List (K × V)} {e x : K × V} (h : x ∈ insert_node l e) :
    x ∈ l ∨ x = e := by
  induction l with
  | nil =>
    simp only [insert_node, List.mem_singleton] at h
    exact Or.inr h
  | cons y ys ih =>
    simp only [insert_node] at h
    split_ifs at h with h1 h2
    · rcases List.mem_cons.1 h with h | h
      · exact Or.inr h
      · exact Or.inl h
    · rcases List.mem_cons.1 h with h | h
      · exact Or.inl (h ▸ List.mem_cons_self _ _)
      · rcases ih h with h | h
        · exact Or.inl (List.mem_cons_of_mem _ h)
        · exact Or.inr h
    · exact Or.inl h

theorem mem_insert_node_of_mem {l : List (K × V)} (e : K × V) {x : K × V} (h : x ∈ l) :
    x ∈ insert_node l e := by
  induction l with
  | nil => simp at h
  | cons y ys ih =>
    simp only [insert_node]
    split_ifs with h1 h2
    · exact List.mem_cons_of_mem _ h
    · rcases List.mem_cons.1 h with h | h
      · exact h ▸ List.mem_cons_self _ _
      · exact List.mem_cons_of_mem _ (ih h)
    · exact h

theorem key_mem_insert_node (l : List (K × V)) (e : K × V) :
    ∃ x ∈ insert_node l e, x.1 = e.1 := by
  induction l with
  | nil => exact ⟨e, by simp [insert_node], rfl⟩
  | cons y ys ih =>
    simp only [insert_node]
    split_ifs with h1 h2
    · exact ⟨e, List.mem_cons_self _ _, rfl⟩
    · obtain ⟨x, hx, hxe⟩ := ih
      exact ⟨x, List.mem_cons_of_mem _ hx, hxe⟩
    · exact ⟨y, List.mem_cons_self _ _, le_antisymm (not_lt.1 h1) (not_lt.1 h2)⟩

theorem keys_increasing_insert_node {l : List (K × V)} (hl : keys_increasing l) (e : K × V) :
    keys_increasing (insert_node l e) := by
  induction l with
  | nil => simp [insert_node, keys_increasing]
  | cons y ys ih =>
    rw [keys_increasing_cons] at hl
    simp only [insert_node]
    split_ifs with h1 h2
    · rw [keys_increasing_cons]
      refine ⟨?_, keys_increasing_cons.2 hl⟩
      intro x hx
      rcases List.mem_cons.1 hx with rfl | hx
      · exact h1
      · exact lt_trans h1 (hl.1 x hx)
    · rw [keys_increasing_cons]
      refine ⟨?_, ih hl.2⟩
      intro x hx
      rcases mem_insert_node hx with hx | rfl
      · exact hl.1 x hx
      · exact h2
    · exact keys_increasing_cons.2 hl

/-- Inserting a key that is present changes nothing. -/
theorem insert_node_of_key_mem {l : List (K × V)} (hl : keys_increasing l) {e x : K × V}
    (hx : x ∈ l) (hxe : x.1 = e.1) : insert_node l e = l := by
  induction l with
  | nil => simp at hx
  | cons y ys ih =>
    rw [keys_increasing_cons] at hl
    simp only [insert_node]
    rcases List.mem_cons.1 hx with rfl | hx
    · simp [hxe]
    · have hy : y.1 < e.1 := hxe ▸ hl.1 x hx
      simp [hy, not_lt_of_lt hy, ih hl.2 hx]

theorem valid_iff {l : List (K × V)} {k : K} :
    valid l (some k) = true ↔ ∃ x ∈ l, x.1 = k := by
  simp [valid]

theorem valid_none (l : List (K × V)) : valid l none = true := rfl

theorem deref_of_valid {l : List (K × V)} {k : K} (h : valid l (some k) = true) :
    ∃ e, deref l (some k) = some e ∧ e ∈ l ∧ e.1 = k := by
  obtain ⟨x, hx, hxk⟩ := valid_iff.1 h
  cases hd : deref l (some k) with
  | none =>
    simp only [deref, List.find?_eq_none, decide_eq_true_eq] at hd
    exact absurd hxk (hd x hx)
  | some e =>
    refine ⟨e, rfl, ?_, ?_⟩
    · exact List.mem_of_find?_eq_some hd
    · simpa using List.find?_some hd

theorem keys_increasing_map_second {l : List (K × V)} (hl : keys_increasing l)
    (f : K × V → V) : keys_increasing (l.map (fun e => (e.1, f e))) := by
  unfold keys_increasing at *
  rw [List.pairwise_map]
  exact hl

theorem lower_bound_nil (k : K) : lower_bound ([] : List (K × V)) k = none := rfl

theorem lower_bound_cons (x : K × V) (xs : List (K × V)) (k : K) :
    lower_bound (x :: xs) k = if x.1 < k then lower_bound xs k else some x.1 := by
  unfold lower_bound
  by_cases h : x.1 < k
  · simp [List.find?_cons, h]
  · simp [List.find?_cons, h, not_lt.1 h]

theorem lower_bound_mem {l : List (K × V)} {k y : K} (h : lower_bound l k = some y) :
    k ≤ y ∧ ∃ e ∈ l, e.1 = y := by
  induction l with
  | nil => simp [lower_bound_nil] at h
  | cons x xs ih =>
    rw [lower_bound_cons] at h
    by_cases hk : x.1 < k
    · simp only [hk, if_true] at h
      obtain ⟨h1, e, he, h2⟩ := ih h
      exact ⟨h1, e, List.mem_cons_of_mem _ he, h2⟩
    · simp only [hk, if_false, Option.some.injEq] at h
      exact ⟨h ▸ not_lt.1 hk, x, List.mem_cons_self _ _, h⟩

theorem lower_bound_none {l : List (K × V)} {k : K} (h : lower_bound l k = none) :
    ∀ e ∈ l, e.1 < k := by
  induction l with
  | nil => simp
  | cons x xs ih =>
    rw [lower_bound_cons] at h
    by_cases hk : x.1 < k
    · simp only [hk, if_true] at h
      intro e he
      rcases List.mem_cons.1 he with rfl | he
      · exact hk
      · exact ih h e he
    · simp [hk] at h

/-- In a sorted container `lower_bound(k)` is the least key that is not less than `k`. -/
theorem lower_bound_le {l : List (K × V)} (hl : keys_increasing l) {k y : K}
    (h : lower_bound l k = some y) {e : K × V} (he : e ∈ l) (hek : k ≤ e.1) : y ≤ e.1 := by
  induction l with
  | nil => simp at he
  | cons x xs ih =>
    rw [keys_increasing_cons] at hl
    rw [lower_bound_cons] at h
    by_cases hk : x.1 < k
    · simp only [hk, if_true] at h
      rcases List.mem_cons.1 he with rfl | he
      · exact absurd hk (not_lt.2 hek)
      · exact ih hl.2 h he
    · simp only [hk, if_false, Option.some.injEq] at h
      rcases List.mem_cons.1 he with rfl | he
      · exact le_of_eq h.symm
      · exact h ▸ le_of_lt (hl.1 e he)

theorem valid_lower_bound (l : List (K × V)) (k : K) : valid l (lower_bound l k) = true := by
  cases h : lower_bound l k with
  | none => rfl
  | some y =>
    obtain ⟨_, e, he, h2⟩ := lower_bound_mem h
    exact valid_iff.2 ⟨e, he, h2⟩

/-- The step back from a usable iterator is defined as soon as a node lies in front of
it, and leads to a node of the container with a smaller key. -/
theorem prev_some {l : List (K × V)} {k : K} (hv : valid l (some k) = true)
    {x : K × V} (hx : x ∈ l) (hxk : x.1 < k) :
    ∃ p, prev l (some k) = some (some p) ∧ p < k ∧ ∃ e ∈ l, e.1 = p := by
  have hxF : x ∈ l.filter (fun e => decide (e.1 < k)) := by
    simp [List.mem_filter, hx, hxk]
  cases hz : (l.filter (fun e => decide (e.1 < k))).getLast? with
  | none =>
    rw [List.getLast?_eq_none_iff] at hz
    rw [hz] at hxF
    simp at hxF
  | some z =>
    have hzF : z ∈ l.filter (fun e => decide (e.1 < k)) := List.mem_of_getLast?_eq_some hz
    have hzl : z ∈ l ∧ z.1 < k := by simpa [List.mem_filter] using hzF
    exact ⟨z.1, by simp [prev, hv, before, hz], hzl.2, z, hzl.1, rfl⟩

theorem prev_end {l : List (K × V)} (hne : l ≠ []) :
    ∃ p, prev l none = some (some p) ∧ ∃ e ∈ l, e.1 = p := by
  cases hz : l.getLast? with
  | none =>
    rw [List.getLast?_eq_none_iff] at hz
    exact absurd hz hne
  | some z =>
    exact ⟨z.1, by simp [prev, valid, before, hz], z, List.mem_of_getLast?_eq_some hz, rfl⟩

end StdMap

/-! ## `CellAssessment.cpp`: the predecessor steps -/

namespace StdMap

variable {K V : Type} [LinearOrder K]

theorem prev_upper_bound_of_greatest {l : List (K × V)} (hl : keys_increasing l) {k : K}
    {e : K × V} (he : e ∈ l) (hek : e.1 ≤ k) (hmax : ∀ x ∈ l, x.1 ≤ k → x.1 ≤ e.1) :
    prev l (upper_bound l k) = some (some e.1) := by
  simp [prev, valid_upper_bound, before_upper_bound hl, getLast_filter_le hl he hek hmax]

theorem exists_le_of_upper_bound_ne_begin {l : List (K × V)} (hl : keys_increasing l) {k : K}
    (h : upper_bound l k ≠ map_begin l) : ∃ x ∈ l, x.1 ≤ k := by
  by_contra hne
  apply h
  rw [upper_bound_eq_begin_iff hl]
  intro e he hek
  exact hne ⟨e, he, hek⟩

end StdMap

namespace CellAssessment

open StdMap

variable {K V : Type} [LinearOrder K]

/-- When the test at line 46 fails, a breakpoint lies exactly at `keyBegin`, and
`itLowerLimitSame` designates it. -/
theorem assign_limits_else {m : interval_map K V} {keyBegin keyEnd : K}
    {s : assign_locals K} (hs : keys_increasing m.m_map)
    (h : m.assign_limits keyBegin keyEnd = some s) (ht : s.noNodeAtKeyBegin = false) :
    s.itLowerLimit = upper_bound m.m_map keyBegin ∧
    s.itHigherLimit = upper_bound m.m_map keyEnd ∧
    upper_bound m.m_map keyEnd ≠ map_begin m.m_map ∧
    s.itLowerLimitSame = some keyBegin ∧
    ∃ e ∈ m.m_map, e.1 = keyBegin := by
  by_cases h1 : upper_bound m.m_map keyBegin = map_begin m.m_map
  · simp [interval_map.assign_limits, h1] at h
    rw [← h] at ht
    simp at ht
  · obtain ⟨e, he, hek, hmax⟩ := exists_greatest_le hs (exists_le_of_upper_bound_ne_begin hs h1)
    have hp := prev_upper_bound_of_greatest hs he hek hmax
    by_cases h3 : upper_bound m.m_map keyEnd = map_begin m.m_map
    · simp [interval_map.assign_limits, h1, hp, h3] at h
      rw [← h] at ht
      simp at ht
    · have hd := deref_of_mem hs he
      simp [interval_map.assign_limits, h1, hp, h3, map_end, hd] at h
      rw [← h] at ht ⊢
      simp only [decide_eq_false_iff_not, not_lt] at ht
      have hkey : e.1 = keyBegin := le_antisymm hek ht
      exact ⟨rfl, rfl, h3, by rw [hkey], e, he, hkey⟩

end CellAssessment

/-! ## `CellAssessment.cpp`: `assign` keeps the keys strictly increasing -/

namespace StdMap
variable {K V : Type} [LinearOrder K]

theorem keys_increasing_of_insert {l : List (K × V)} (hl : keys_increasing l)
    {hint : Option K} {e : K × V} {r : List (K × V) × Option K}
    (h : StdMap.insert l hint e = some r) : keys_increasing r.1 := by
  unfold StdMap.insert at h
  split_ifs at h
  cases h
  exact keys_increasing_insert_node hl e

theorem keys_increasing_of_erase_range {l : List (K × V)} (hl : keys_increasing l)
    {first last : Option K} {r : List (K × V) × Option K}
    (h : erase_range l first last = some r) : keys_increasing r.1 := by
  unfold erase_range at h
  split_ifs at h
  cases h
  exact keys_increasing_filter hl _

theorem keys_increasing_of_erase {l : List (K × V)} (hl : keys_increasing l)
    {pos : Option K} {r : List (K × V) × Option K}
    (h : erase l pos = some r) : keys_increasing r.1 := by
  cases pos with
  | none => simp [erase] at h
  | some k =>
    simp only [erase] at h
    split_ifs at h
    cases h
    exact keys_increasing_filter hl _

theorem keys_increasing_of_set_second {l : List (K × V)} (hl : keys_increasing l)
    {it : Option K} {v : V} {r : List (K × V)}
    (h : set_second l it v = some r) : keys_increasing r := by
  cases it with
  | none => simp [set_second] at h
  | some k =>
    simp only [set_second] at h
    split_ifs at h
    cases h
    unfold keys_increasing at *
    rw [List.pairwise_map]
    refine hl.imp ?_
    intro a b hab
    by_cases ha : a.1 = k <;> by_cases hb : b.1 = k <;> simp [ha, hb] <;> simp [ha, hb] at hab <;> exact hab

end StdMap

namespace CellAssessment
open StdMap
variable {K V : Type} [LinearOrder K]

theorem assign_if_branch_sorted [DecidableEq V] {m m1 : interval_map K V} {s : assign_locals K}
    {keyBegin keyEnd : K} {val : V} (hs : keys_increasing m.m_map)
    (h : m.assign_if_branch s keyBegin keyEnd val = some m1) : keys_increasing m1.m_map := by
  unfold interval_map.assign_if_branch at h
  by_cases hv : val = m.m_valBegin
  · simp only [hv, ne_eq, not_true_eq_false, if_false] at h
    cases h
    exact hs
  · simp only [ne_eq, hv, not_false_eq_true, if_true, Option.bind_eq_bind,
      Option.bind_eq_some] at h
    obtain ⟨r1, hr1, h⟩ := h
    have hs1 := keys_increasing_of_insert hs hr1
    have tail : ∀ b : Bool,
        (if ¬ b = true then
            (StdMap.insert r1.1 s.itHigherLimit (keyEnd, m.m_valBegin)).bind fun a =>
              some { m_valBegin := m.m_valBegin, m_map := a.1 }
          else some { m_valBegin := m.m_valBegin, m_map := r1.1 }) = some m1 →
        keys_increasing m1.m_map := by
      intro b hb
      cases b
      · simp only [Bool.false_eq_true, not_false_eq_true, if_true, Option.bind_eq_some] at hb
        obtain ⟨r2, hr2, hm⟩ := hb
        cases hm
        exact keys_increasing_of_insert hs1 hr2
      · simp only [not_true_eq_false, if_false] at hb
        cases hb
        exact hs1
    by_cases h2 : s.itHigherLimit = map_end
    · rw [if_pos h2] at h
      simp only [Option.bind_eq_some] at h
      obtain ⟨a, -, h⟩ := h
      exact tail a h
    · rw [if_neg h2] at h
      simp only [Option.bind_eq_some] at h
      obtain ⟨a, -, h⟩ := h
      exact tail a h

theorem assign_else_branch_sorted [DecidableEq V] {m m1 : interval_map K V}
    {s : assign_locals K} {keyBegin keyEnd : K} {val : V} (hs : keys_increasing m.m_map)
    (h : m.assign_else_branch s keyBegin keyEnd val = some m1) : keys_increasing m1.m_map := by
  unfold interval_map.assign_else_branch at h
  simp only [Option.bind_eq_bind, Option.bind_eq_some] at h
  obtain ⟨itEnd, -, lowerSame, -, h⟩ := h
  by_cases hv : lowerSame.2 = val
  · rw [if_pos hv] at h
    simp only [Option.bind_eq_some] at h
    obtain ⟨endNode, -, h⟩ := h
    by_cases he : endNode.1 = keyEnd
    · rw [if_pos he] at h
      by_cases hb : endNode.2 = m.m_valBegin
      · simp only [hb, ne_eq, not_true_eq_false, if_false, Option.bind_eq_some] at h
        obtain ⟨r1, hr1, hm⟩ := h
        cases hm
        exact keys_increasing_of_erase_range hs hr1
      · simp only [hb, ne_eq, not_false_eq_true, if_true, Option.bind_eq_some] at h
        obtain ⟨l1, hl1, hm⟩ := h
        cases hm
        exact keys_increasing_of_set_second hs hl1
    · rw [if_neg he] at h
      cases h
      exact hs
  · rw [if_neg hv] at h
    simp only [Option.bind_eq_some] at h
    obtain ⟨r1, hr1, r2, hr2, endNode, -, h⟩ := h
    have hs2 := keys_increasing_of_insert (keys_increasing_of_erase_range hs hr1) hr2
    by_cases he : endNode.1 = keyEnd
    · simp only [he, ne_eq, not_true_eq_false, if_false] at h
      cases h
      exact hs2
    · simp only [he, ne_eq, not_false_eq_true, if_true, Option.bind_eq_some] at h
      obtain ⟨r3, hr3, hm⟩ := h
      cases hm
      exact keys_increasing_of_insert hs2 hr3

/-- One call of `assign` keeps the keys strictly increasing. -/
theorem assign_sorted [DecidableEq V] {m m1 : interval_map K V} {keyBegin keyEnd : K}
    {val : V} (hs : keys_increasing m.m_map) (h : m.assign keyBegin keyEnd val = some m1) :
    keys_increasing m1.m_map := by
  rw [assign_eq_branches] at h
  by_cases hk : keyBegin < keyEnd
  · simp only [hk, not_true_eq_false, if_false, Option.bind_eq_some] at h
    obtain ⟨s, -, h⟩ := h
    cases hb : s.noNodeAtKeyBegin
    · rw [hb] at h
      exact assign_else_branch_sorted hs h
    · rw [hb] at h
      exact assign_if_branch_sorted hs h
  · simp only [hk, not_false_eq_true, if_true] at h
    cases h
    exact hs

theorem assign_all_sorted [DecidableEq V] (calls : List (K × K × V)) :
    ∀ {m m1 : interval_map K V}, keys_increasing m.m_map → m.assign_all calls = some m1 →
      keys_increasing m1.m_map := by
  induction calls with
  | nil =>
    intro m m1 hs h
    simp only [interval_map.assign_all] at h
    cases h
    exact hs
  | cons c cs ih =>
    intro m m1 hs h
    simp only [interval_map.assign_all, Option.bind_eq_some] at h
    obtain ⟨m2, h2, h⟩ := h
    exact ih (assign_sorted hs h2) h

end CellAssessment

/-! ## `SecondAttempt.cpp`: `assign_two` split into its stages -/

namespace SecondAttempt
open StdMap
variable {K V : Type} [LinearOrder K]

theorem assign_two_begin_then {β : Type} (value_init : K × V) (m : interval_map K V)
    (keyBegin : K) (k : Bool × Option K × (K × V) → Option β) :
    (do
      let itBegin0 := lower_bound m.m_map keyBegin
      let beginIsAbove ←
        if itBegin0 = map_end then some false
        else (deref m.m_map itBegin0).map (fun e => decide (keyBegin < e.1))
      let b ←
        if beginIsAbove ∧ itBegin0 ≠ map_begin m.m_map then do
          let it ← prev m.m_map itBegin0
          let e ← deref m.m_map it
          some (true, it, (e.1, e.2))
        else some (false, itBegin0, value_init)
      k b) = (m.assign_two_begin value_init keyBegin).bind k := by
  unfold interval_map.assign_two_begin
  by_cases h1 : lower_bound m.m_map keyBegin = map_end
  · simp [h1]
  · cases hd : deref m.m_map (lower_bound m.m_map keyBegin) with
    | none => simp [h1, hd]
    | some e =>
      by_cases h2 : keyBegin < e.1 ∧ lower_bound m.m_map keyBegin ≠ map_begin m.m_map
      · cases hp : prev m.m_map (lower_bound m.m_map keyBegin) with
        | none => simp [h1, hd, h2, hp]
        | some it =>
          cases hd2 : deref m.m_map it with
          | none => simp [h1, hd, h2, hp, hd2]
          | some e2 => simp [h1, hd, h2, hp, hd2]
      · simp [h1, hd, h2]

theorem assign_two_end_then {β : Type} (value_init : K × V) (m : interval_map K V)
    (keyEnd : K) (k : Bool × (K × V) → Option β) :
    (do
      let itEnd0 := lower_bound m.m_map keyEnd
      let endIsAbove ←
        if itEnd0 = map_end then some false
        else (deref m.m_map itEnd0).map (fun e => decide (keyEnd < e.1))
      let x ←
        if endIsAbove then do
          let extraIt ← prev m.m_map itEnd0
          let e ← deref m.m_map extraIt
          some (true, (keyEnd, e.2))
        else some (false, value_init)
      k x) = (m.assign_two_end value_init keyEnd).bind k := by
  unfold interval_map.assign_two_end
  by_cases h1 : lower_bound m.m_map keyEnd = map_end
  · simp [h1]
  · cases hd : deref m.m_map (lower_bound m.m_map keyEnd) with
    | none => simp [h1, hd]
    | some e =>
      by_cases h2 : keyEnd < e.1
      · cases hp : prev m.m_map (lower_bound m.m_map keyEnd) with
        | none => simp [h1, hd, h2, hp]
        | some it =>
          cases hd2 : deref m.m_map it with
          | none => simp [h1, hd, h2, hp, hd2]
          | some e2 => simp [h1, hd, h2, hp, hd2]
      · simp [h1, hd, h2]

theorem assign_two_mid_then [DecidableEq V] {β : Type} (m : interval_map K V)
    (b : Bool × Option K × (K × V)) (val : V) (k : Bool → Option β) :
    (do
      let insertMid ←
        if b.1 then some (decide (¬ b.2.2.2 = val))
        else if b.2.1 ≠ map_begin m.m_map then do
          let beforeMid ← prev m.m_map b.2.1
          let e ← deref m.m_map beforeMid
          some (decide (¬ e.2 = val))
        else some true
      k insertMid) = (m.assign_two_mid b val).bind k := by
  unfold interval_map.assign_two_mid
  by_cases h1 : b.1 = true
  · simp [h1]
  · by_cases h2 : b.2.1 = map_begin m.m_map
    · simp [h1, h2]
    · cases hp : prev m.m_map b.2.1 with
      | none => simp [h1, h2, hp]
      | some it =>
        cases hd2 : deref m.m_map it with
        | none => simp [h1, h2, hp, hd2]
        | some e2 => simp [h1, h2, hp, hd2]

theorem assign_two_conflicts_then [DecidableEq V] {β : Type} (m : interval_map K V)
    (b : Bool × Option K × (K × V)) (x : Bool × (K × V)) (insertMid : Bool) (keyEnd : K)
    (val : V) (k : Bool × List (K × V) × Option K → Option β) :
    (do
      let itEnd0 := lower_bound m.m_map keyEnd
      let y ←
        if x.1 then
          if (insertMid ∧ x.2.2 = val) ∨ (¬ insertMid ∧ x.2.2 = b.2.2.2) then
            some (false, m.m_map, itEnd0)
          else some (true, m.m_map, itEnd0)
        else do
          let dropEnd ←
            if itEnd0 = map_end then some false
            else (deref m.m_map itEnd0).map (fun e =>
              decide ((insertMid ∧ e.2 = val) ∨ (¬ insertMid ∧ e.2 = b.2.2.2)))
          if dropEnd then do
            let r ← erase m.m_map itEnd0
            some (false, r.1, r.2)
          else some (false, m.m_map, itEnd0)
      k y) = (m.assign_two_conflicts b x insertMid keyEnd val).bind k := by
  unfold interval_map.assign_two_conflicts
  by_cases h1 : x.1 = true
  · by_cases h2 : (insertMid = true ∧ x.2.2 = val) ∨ (¬ insertMid = true ∧ x.2.2 = b.2.2.2)
    · simp only [h1, if_true, if_pos h2]
      rfl
    · simp only [h1, if_true, if_neg h2]
      rfl
  · by_cases h3 : lower_bound m.m_map keyEnd = map_end
    · simp [h1, h3]
    · cases hd : deref m.m_map (lower_bound m.m_map keyEnd) with
      | none => simp [h1, h3, hd]
      | some e =>
        cases he : erase m.m_map (lower_bound m.m_map keyEnd) with
        | none =>
          cases insertMid
          · by_cases h2 : e.2 = b.2.2.2 <;> simp [h1, h3, hd, h2, he]
          · by_cases h2 : e.2 = val <;> simp [h1, h3, hd, h2, he]
        | some r =>
          cases insertMid
          · by_cases h2 : e.2 = b.2.2.2 <;> simp [h1, h3, hd, h2, he]
          · by_cases h2 : e.2 = val <;> simp [h1, h3, hd, h2, he]

theorem assign_two_eq_stages [DecidableEq V] (value_init : K × V) (m : interval_map K V)
    (keyBegin keyEnd : K) (val : V) :
    m.assign_two value_init keyBegin keyEnd val =
      if ¬ (keyBegin < keyEnd) then some m
      else (m.assign_two_begin value_init keyBegin).bind fun b =>
        (m.assign_two_end value_init keyEnd).bind fun x =>
        (m.assign_two_mid b val).bind fun insertMid =>
        (m.assign_two_conflicts b x insertMid keyEnd val).bind fun y =>
        assign_two_splice b x insertMid y keyBegin val := by
  by_cases h : keyBegin < keyEnd
  · rw [if_neg (not_not.2 h)]
    unfold interval_map.assign_two
    rw [if_neg (not_not.2 h)]
    refine (assign_two_begin_then value_init m keyBegin _).trans ?_
    congr 1
    funext b
    refine (assign_two_end_then value_init m keyEnd _).trans ?_
    congr 1
    funext x
    refine (assign_two_mid_then m b val _).trans ?_
    congr 1
    funext insertMid
    refine (assign_two_conflicts_then m b x insertMid keyEnd val _).trans ?_
    congr 1
  · rw [if_pos h]
    simp [interval_map.assign_two, h]
end SecondAttempt

/-! ## The sorted association list: the least key -/

namespace StdMap
variable {K V : Type} [LinearOrder K]

theorem insert_of_valid {l : List (K × V)} {hint : Option K} (h : valid l hint = true)
    (e : K × V) : StdMap.insert l hint e = some (insert_node l e, some e.1) := by
  simp [StdMap.insert, h]

theorem valid_insert_node (l : List (K × V)) (e : K × V) :
    valid (insert_node l e) (some e.1) = true :=
  valid_iff.2 (key_mem_insert_node l e)

/-- A sorted container whose least key is `lowest` begins with it. -/
theorem map_begin_of_least {l : List (K × V)} (hl : keys_increasing l) {lowest : K}
    (hmem : ∃ e ∈ l, e.1 = lowest) (hmin : ∀ e ∈ l, lowest ≤ e.1) :
    map_begin l = some lowest := by
  cases l with
  | nil =>
    obtain ⟨e, he, _⟩ := hmem
    simp at he
  | cons x xs =>
    rw [keys_increasing_cons] at hl
    obtain ⟨e, he, hee⟩ := hmem
    simp only [map_begin, List.head?_cons, Option.map_some', Option.some.injEq]
    rcases List.mem_cons.1 he with rfl | he
    · exact hee
    · have h1 : x.1 < e.1 := hl.1 e he
      have h2 : lowest ≤ x.1 := hmin x (List.mem_cons_self _ _)
      rw [hee] at h1
      exact absurd h1 (not_lt.2 h2)

theorem least_of_map_begin {l : List (K × V)} (hl : keys_increasing l) {lowest : K}
    (hb : map_begin l = some lowest) :
    l ≠ [] ∧ (∃ e ∈ l, e.1 = lowest) ∧ ∀ e ∈ l, lowest ≤ e.1 := by
  cases l with
  | nil => simp [map_begin] at hb
  | cons x xs =>
    rw [keys_increasing_cons] at hl
    simp only [map_begin, List.head?_cons, Option.map_some', Option.some.injEq] at hb
    refine ⟨by simp, ⟨x, List.mem_cons_self _ _, hb⟩, ?_⟩
    intro e he
    rcases List.mem_cons.1 he with rfl | he
    · exact le_of_eq hb.symm
    · exact hb ▸ le_of_lt (hl.1 e he)

end StdMap

/-! ## `SecondAttempt.cpp`: the stages of `assign_two` on a map with the sentinel -/

namespace SecondAttempt
open StdMap
variable {K V : Type} [LinearOrder K]

/-- Lines 36-46 on a map with the sentinel: the stage is defined, `itBegin` is usable and
its key is at most `keyBegin`, and an extra entry is an entry of the map. -/
theorem assign_two_begin_spec (value_init : K × V) {m : interval_map K V} {lowest : K}
    (hI : m.has_sentinel lowest) {keyBegin : K} (hk : lowest ≤ keyBegin) :
    ∃ b, m.assign_two_begin value_init keyBegin = some b ∧
      valid m.m_map b.2.1 = true ∧
      (∀ k1, b.2.1 = some k1 → k1 ≤ keyBegin) ∧
      (b.2.1 = none → ∀ e ∈ m.m_map, e.1 < keyBegin) ∧
      (b.1 = true → b.2.2 ∈ m.m_map ∧ b.2.1 = some b.2.2.1) ∧
      (b.1 = false → b.2.1 = map_begin m.m_map → keyBegin = lowest) := by
  obtain ⟨hs, hb⟩ := hI
  obtain ⟨_, ⟨s0, hs0, hs0k⟩, hmin⟩ := least_of_map_begin hs hb
  cases hB : lower_bound m.m_map keyBegin with
  | none =>
    refine ⟨(false, none, value_init), by simp [interval_map.assign_two_begin, hB, map_end],
      rfl, by simp, fun _ => lower_bound_none hB, by simp, ?_⟩
    intro _ h
    rw [hb] at h
    cases h
  | some y1 =>
    obtain ⟨hky, e1, he1, he1k⟩ := lower_bound_mem hB
    have hd1 : deref m.m_map (some y1) = some e1 := he1k ▸ deref_of_mem hs he1
    by_cases hab : keyBegin < y1 ∧ some y1 ≠ map_begin m.m_map
    · have hv : valid m.m_map (some y1) = true := valid_iff.2 ⟨e1, he1, he1k⟩
      obtain ⟨p, hp, hpy, ep, hep, hepk⟩ :=
        prev_some hv hs0 (lt_of_le_of_lt (hs0k ▸ hk) hab.1)
      have hdp : deref m.m_map (some p) = some ep := hepk ▸ deref_of_mem hs hep
      have hpk : p < keyBegin := by
        by_contra hc
        have := lower_bound_le hs hB hep (hepk ▸ not_lt.1 hc)
        rw [hepk] at this
        exact absurd hpy (not_lt.2 this)
      refine ⟨(true, some p, (ep.1, ep.2)), ?_, valid_iff.2 ⟨ep, hep, hepk⟩, ?_, by simp,
        ?_, by simp⟩
      · simp [interval_map.assign_two_begin, hB, map_end, hd1, he1k, hab.1, hab.2, hp, hdp]
      · intro k1 h1
        cases h1
        exact le_of_lt hpk
      · intro _
        exact ⟨hep, by simp [hepk]⟩
    · refine ⟨(false, some y1, value_init), ?_, valid_iff.2 ⟨e1, he1, he1k⟩, ?_, by simp,
        by simp, ?_⟩
      · by_cases h1 : keyBegin < y1
        · have h2 : some y1 = map_begin m.m_map := by
            by_contra hc
            exact hab ⟨h1, hc⟩
          simp [interval_map.assign_two_begin, hB, map_end, hd1, he1k, h1, h2.symm]
        · simp [interval_map.assign_two_begin, hB, map_end, hd1, he1k, h1]
      · intro k1 h1
        cases h1
        by_cases h1 : keyBegin < y1
        · have h2 : some y1 = map_begin m.m_map := by
            by_contra hc
            exact hab ⟨h1, hc⟩
          rw [hb] at h2
          cases h2
          exact hk
        · exact not_lt.1 h1
      · intro _ h2
        rw [hb] at h2
        cases h2
        exact le_antisymm hky hk

/-- Lines 48-57 on a map with the sentinel: the stage is defined (the step back from
`lower_bound(keyEnd)` has an entry to step to), and an extra entry has key `keyEnd`. -/
theorem assign_two_end_spec (value_init : K × V) {m : interval_map K V} {lowest : K}
    (hI : m.has_sentinel lowest) {keyEnd : K} (hk : lowest < keyEnd) :
    ∃ x, m.assign_two_end value_init keyEnd = some x ∧ (x.1 = true → x.2.1 = keyEnd) := by
  obtain ⟨hs, hb⟩ := hI
  obtain ⟨_, ⟨s0, hs0, hs0k⟩, hmin⟩ := least_of_map_begin hs hb
  cases hE : lower_bound m.m_map keyEnd with
  | none =>
    exact ⟨(false, value_init), by simp [interval_map.assign_two_end, hE, map_end], by simp⟩
  | some y2 =>
    obtain ⟨hky, e2, he2, he2k⟩ := lower_bound_mem hE
    have hd2 : deref m.m_map (some y2) = some e2 := he2k ▸ deref_of_mem hs he2
    by_cases h1 : keyEnd < y2
    · have hv : valid m.m_map (some y2) = true := valid_iff.2 ⟨e2, he2, he2k⟩
      obtain ⟨p, hp, hpy, ep, hep, hepk⟩ :=
        prev_some hv hs0 (lt_trans (hs0k ▸ hk) h1)
      have hdp : deref m.m_map (some p) = some ep := hepk ▸ deref_of_mem hs hep
      exact ⟨(true, (keyEnd, ep.2)),
        by simp [interval_map.assign_two_end, hE, map_end, hd2, he2k, h1, hp, hdp], by simp⟩
    · exact ⟨(false, value_init),
        by simp [interval_map.assign_two_end, hE, map_end, hd2, he2k, h1], by simp⟩

/-- Lines 65-77 on a map with the sentinel: the stage is defined, and a range that
starts at the first entry without an extra entry gets its mid entry. -/
theorem assign_two_mid_spec [DecidableEq V] {m : interval_map K V} {lowest : K}
    (hI : m.has_sentinel lowest) (b : Bool × Option K × (K × V)) (val : V)
    (hv : valid m.m_map b.2.1 = true) :
    ∃ insertMid, m.assign_two_mid b val = some insertMid ∧
      (b.1 = false → b.2.1 = map_begin m.m_map → insertMid = true) := by
  obtain ⟨hs, hb⟩ := hI
  obtain ⟨hne, ⟨s0, hs0, hs0k⟩, hmin⟩ := least_of_map_begin hs hb
  by_cases h1 : b.1 = true
  · exact ⟨decide (¬ b.2.2.2 = val), by simp [interval_map.assign_two_mid, h1], by simp [h1]⟩
  · by_cases h2 : b.2.1 = map_begin m.m_map
    · exact ⟨true, by simp [interval_map.assign_two_mid, h1, h2], by simp⟩
    · have hprev : ∃ p, prev m.m_map b.2.1 = some (some p) ∧ ∃ e ∈ m.m_map, e.1 = p := by
        cases hit : b.2.1 with
        | none => exact prev_end hne
        | some k1 =>
          rw [hit] at hv h2
          obtain ⟨z, hz, hzk⟩ := valid_iff.1 hv
          have hlt : lowest < k1 := by
            refine lt_of_le_of_ne (hzk ▸ hmin z hz) ?_
            intro hc
            apply h2
            rw [hb, hc]
          obtain ⟨p, hp, _, hmem⟩ := prev_some hv hs0 (hs0k ▸ hlt)
          exact ⟨p, hp, hmem⟩
      obtain ⟨p, hp, ep, hep, hepk⟩ := hprev
      have hdp : deref m.m_map (some p) = some ep := hepk ▸ deref_of_mem hs hep
      exact ⟨decide (¬ ep.2 = val),
        by simp [interval_map.assign_two_mid, h1, h2, hp, hdp], fun _ h => absurd h h2⟩

end SecondAttempt

namespace SecondAttempt
open StdMap
variable {K V : Type} [LinearOrder K]

theorem it_le_none_right (a : Option K) : it_le a none = true := by
  cases a <;> rfl

/-- Lines 80-87 on a map with the sentinel: the stage is defined; the map it leaves is
sorted, keeps every entry with key below `keyEnd`, and `itBegin`, `itEnd` are usable
iterators of it that form a range. -/
theorem assign_two_conflicts_spec [DecidableEq V] {m : interval_map K V} {lowest : K}
    (hI : m.has_sentinel lowest) {keyBegin keyEnd : K} (hke : keyBegin < keyEnd)
    (b : Bool × Option K × (K × V)) (x : Bool × (K × V)) (insertMid : Bool) (val : V)
    (hv : valid m.m_map b.2.1 = true)
    (hle : ∀ k1, b.2.1 = some k1 → k1 ≤ keyBegin)
    (hnone : b.2.1 = none → ∀ e ∈ m.m_map, e.1 < keyBegin) :
    ∃ y, m.assign_two_conflicts b x insertMid keyEnd val = some y ∧
      keys_increasing y.2.1 ∧
      (∀ e ∈ y.2.1, e ∈ m.m_map) ∧
      (∀ e ∈ m.m_map, e.1 < keyEnd → e ∈ y.2.1) ∧
      valid y.2.1 y.2.2 = true ∧
      valid y.2.1 b.2.1 = true ∧
      it_le b.2.1 y.2.2 = true ∧
      (∀ k2, y.2.2 = some k2 → keyEnd ≤ k2) ∧
      (y.1 = true → x.1 = true) := by
  obtain ⟨hs, hb⟩ := hI
  -- the outcome that erases nothing
  have keep : ∀ c : Bool, (c = true → x.1 = true) →
      keys_increasing (c, m.m_map, lower_bound m.m_map keyEnd).2.1 ∧
      (∀ e ∈ (c, m.m_map, lower_bound m.m_map keyEnd).2.1, e ∈ m.m_map) ∧
      (∀ e ∈ m.m_map, e.1 < keyEnd → e ∈ (c, m.m_map, lower_bound m.m_map keyEnd).2.1) ∧
      valid (c, m.m_map, lower_bound m.m_map keyEnd).2.1
        (c, m.m_map, lower_bound m.m_map keyEnd).2.2 = true ∧
      valid (c, m.m_map, lower_bound m.m_map keyEnd).2.1 b.2.1 = true ∧
      it_le b.2.1 (c, m.m_map, lower_bound m.m_map keyEnd).2.2 = true ∧
      (∀ k2, (c, m.m_map, lower_bound m.m_map keyEnd).2.2 = some k2 → keyEnd ≤ k2) ∧
      ((c, m.m_map, lower_bound m.m_map keyEnd).1 = true → x.1 = true) := by
    intro c hc
    refine ⟨hs, fun e he => he, fun e he _ => he, valid_lower_bound _ _, hv, ?_, ?_, hc⟩
    · show it_le b.2.1 (lower_bound m.m_map keyEnd) = true
      cases hE : lower_bound m.m_map keyEnd with
      | none => exact it_le_none_right _
      | some y2 =>
        obtain ⟨hky, e2, he2, he2k⟩ := lower_bound_mem hE
        cases hit : b.2.1 with
        | none =>
          have := hnone hit e2 he2
          rw [he2k] at this
          exact absurd (lt_of_le_of_lt hky this) (not_lt.2 (le_of_lt hke))
        | some k1 =>
          have h1 := hle k1 hit
          simp only [it_le, decide_eq_true_eq]
          exact le_trans h1 (le_trans (le_of_lt hke) hky)
    · intro k2 h2
      exact (lower_bound_mem h2).1
  by_cases h1 : x.1 = true
  · by_cases h2 : (insertMid = true ∧ x.2.2 = val) ∨ (¬ insertMid = true ∧ x.2.2 = b.2.2.2)
    · refine ⟨(false, m.m_map, lower_bound m.m_map keyEnd), ?_, keep false (by simp)⟩
      simp only [interval_map.assign_two_conflicts, h1, if_true, if_pos h2]
    · refine ⟨(true, m.m_map, lower_bound m.m_map keyEnd), ?_, keep true (fun _ => h1)⟩
      simp only [interval_map.assign_two_conflicts, h1, if_true, if_neg h2]
  · cases hE : lower_bound m.m_map keyEnd with
    | none =>
      refine ⟨(false, m.m_map, lower_bound m.m_map keyEnd), ?_, keep false (by simp)⟩
      simp [interval_map.assign_two_conflicts, h1, hE, map_end]
    | some y2 =>
      obtain ⟨hky, e2, he2, he2k⟩ := lower_bound_mem hE
      have hd2 : deref m.m_map (some y2) = some e2 := he2k ▸ deref_of_mem hs he2
      by_cases h2 : (insertMid = true ∧ e2.2 = val) ∨ (¬ insertMid = true ∧ e2.2 = b.2.2.2)
      · have hv2 : valid m.m_map (some y2) = true := valid_iff.2 ⟨e2, he2, he2k⟩
        refine ⟨(false, m.m_map.filter (fun e => !(decide (e.1 = y2))),
          upper_bound m.m_map y2), ?_, keys_increasing_filter hs _, ?_, ?_, ?_, ?_, ?_, ?_,
          by simp⟩
        · have hdrop : decide ((insertMid = true ∧ e2.2 = val) ∨
              (¬ insertMid = true ∧ e2.2 = b.2.2.2)) = true := by simpa using h2
          simp only [interval_map.assign_two_conflicts, h1, hE, map_end, if_false, hd2,
            Option.map_some', hdrop, if_true, erase, hv2, Option.bind_eq_bind,
            Option.some_bind, reduceCtorEq]
        · intro e he
          exact (List.mem_filter.1 he).1
        · intro e he hek
          refine List.mem_filter.2 ⟨he, ?_⟩
          have : e.1 ≠ y2 := ne_of_lt (lt_of_lt_of_le hek hky)
          simp [this]
        · show valid _ (upper_bound m.m_map y2) = true
          cases hU : upper_bound m.m_map y2 with
          | none => rfl
          | some y3 =>
            obtain ⟨hlt, e3, he3, he3k⟩ := upper_bound_mem hU
            refine valid_iff.2 ⟨e3, List.mem_filter.2 ⟨he3, ?_⟩, he3k⟩
            have : e3.1 ≠ y2 := he3k ▸ ne_of_gt hlt
            simp [this]
        · show valid _ b.2.1 = true
          cases hit : b.2.1 with
          | none => rfl
          | some k1 =>
            rw [hit] at hv
            obtain ⟨z, hz, hzk⟩ := valid_iff.1 hv
            refine valid_iff.2 ⟨z, List.mem_filter.2 ⟨hz, ?_⟩, hzk⟩
            have : z.1 ≠ y2 :=
              hzk ▸ ne_of_lt (lt_of_le_of_lt (hle k1 hit) (lt_of_lt_of_le hke hky))
            simp [this]
        · show it_le b.2.1 (upper_bound m.m_map y2) = true
          cases hU : upper_bound m.m_map y2 with
          | none => exact it_le_none_right _
          | some y3 =>
            obtain ⟨hlt, _⟩ := upper_bound_mem hU
            cases hit : b.2.1 with
            | none =>
              have := hnone hit e2 he2
              rw [he2k] at this
              exact absurd (lt_of_le_of_lt hky this) (not_lt.2 (le_of_lt hke))
            | some k1 =>
              simp only [it_le, decide_eq_true_eq]
              exact le_trans (hle k1 hit)
                (le_trans (le_of_lt hke) (le_trans hky (le_of_lt hlt)))
        · intro k2 hk2
          exact le_trans hky (le_of_lt (upper_bound_mem hk2).1)
      · have hkeep := keep false (by simp)
        rw [hE] at hkeep
        refine ⟨(false, m.m_map, some y2), ?_, hkeep⟩
        have hdrop : decide ((insertMid = true ∧ e2.2 = val) ∨
            (¬ insertMid = true ∧ e2.2 = b.2.2.2)) = false := by simpa using h2
        simp only [interval_map.assign_two_conflicts, h1, hE, map_end, if_false, hd2,
          Option.map_some', hdrop, Option.bind_eq_bind, Option.some_bind, reduceCtorEq,
          Bool.false_eq_true]

end SecondAttempt

namespace SecondAttempt
open StdMap
variable {K V : Type} [LinearOrder K]

/-- One optional insertion of lines 90-95: it is defined when the hint is usable, and
leaves a usable hint. -/
theorem optional_insert (c : Bool) (r : List (K × V) × Option K) (e : K × V)
    (hv : valid r.1 r.2 = true) :
    ∃ r1, (if c = true then StdMap.insert r.1 r.2 e else some r) = some r1 ∧
      r1.1 = (if c = true then insert_node r.1 e else r.1) ∧ valid r1.1 r1.2 = true := by
  cases c
  · exact ⟨r, by simp, by simp, hv⟩
  · exact ⟨(insert_node r.1 e, some e.1), by simp [insert_of_valid hv], by simp,
      valid_insert_node _ _⟩

theorem optional_insert_sorted {c : Bool} {l l1 : List (K × V)} {e : K × V}
    (h : l1 = (if c = true then insert_node l e else l)) (hl : keys_increasing l) :
    keys_increasing l1 := by
  cases c
  · simpa [h] using hl
  · simpa [h] using keys_increasing_insert_node hl e

theorem optional_insert_lower {c : Bool} {l l1 : List (K × V)} {e : K × V} {lowest : K}
    (h : l1 = (if c = true then insert_node l e else l)) (hl : ∀ z ∈ l, lowest ≤ z.1)
    (he : c = true → lowest ≤ e.1) : ∀ z ∈ l1, lowest ≤ z.1 := by
  intro z hz
  cases c
  · simp only [Bool.false_eq_true, if_false] at h
    exact hl z (h ▸ hz)
  · simp only [if_true] at h
    rcases mem_insert_node (h ▸ hz) with hz | rfl
    · exact hl z hz
    · exact he rfl

theorem optional_insert_keeps {c : Bool} {l l1 : List (K × V)} {e : K × V} {k : K}
    (h : l1 = (if c = true then insert_node l e else l)) (hl : ∃ z ∈ l, z.1 = k) :
    ∃ z ∈ l1, z.1 = k := by
  obtain ⟨z, hz, hzk⟩ := hl
  cases c
  · simp only [Bool.false_eq_true, if_false] at h
    exact ⟨z, h ▸ hz, hzk⟩
  · simp only [if_true] at h
    exact ⟨z, h ▸ mem_insert_node_of_mem e hz, hzk⟩

theorem optional_insert_adds {l l1 : List (K × V)} {e : K × V}
    (h : l1 = (if true = true then insert_node l e else l)) : ∃ z ∈ l1, z.1 = e.1 := by
  simp only [if_true] at h
  rw [h]
  exact key_mem_insert_node l e

/-- Lines 89-95 as a chain of steps. -/
theorem assign_two_splice_eq (b : Bool × Option K × (K × V)) (x : Bool × (K × V))
    (insertMid : Bool) (y : Bool × List (K × V) × Option K) (keyBegin : K) (val : V) :
    assign_two_splice b x insertMid y keyBegin val =
      (erase_range y.2.1 b.2.1 y.2.2).bind fun r1 =>
      (if b.1 = true then StdMap.insert r1.1 r1.2 b.2.2 else some r1).bind fun r2 =>
      (if insertMid = true then StdMap.insert r2.1 r2.2 (keyBegin, val) else some r2).bind
        fun r3 =>
      (if y.1 = true then StdMap.insert r3.1 r3.2 x.2 else some r3).bind fun r4 =>
      some { m_map := r4.1 } := by
  cases h1 : b.1 <;> cases h2 : insertMid <;> cases h3 : y.1 <;>
    simp [assign_two_splice, h1, h2, h3]

/-- Lines 89-95 on a map with the sentinel: the stage is defined and leaves a map with
the sentinel. -/
theorem assign_two_splice_spec {l : List (K × V)} {lowest : K} (hs : keys_increasing l)
    (hbeg : map_begin l = some lowest) {keyBegin keyEnd : K} (hkb : lowest ≤ keyBegin)
    (hke : keyBegin < keyEnd) (b : Bool × Option K × (K × V)) (x : Bool × (K × V))
    (insertMid : Bool) (y : Bool × List (K × V) × Option K) (val : V)
    (hb4 : b.1 = true → b.2.2 ∈ l ∧ b.2.1 = some b.2.2.1)
    (hb5 : b.1 = false → b.2.1 = map_begin l → keyBegin = lowest)
    (hx : x.1 = true → x.2.1 = keyEnd)
    (him : b.1 = false → b.2.1 = map_begin l → insertMid = true)
    (hy1 : keys_increasing y.2.1) (hy2 : ∀ e ∈ y.2.1, e ∈ l)
    (hy3 : ∀ e ∈ l, e.1 < keyEnd → e ∈ y.2.1)
    (hy4 : valid y.2.1 y.2.2 = true) (hy5 : valid y.2.1 b.2.1 = true)
    (hy6 : it_le b.2.1 y.2.2 = true) (hy8 : y.1 = true → x.1 = true) :
    ∃ m1 : interval_map K V,
      assign_two_splice b x insertMid y keyBegin val = some m1 ∧ m1.has_sentinel lowest := by
  obtain ⟨_, ⟨s0, hs0, hs0k⟩, hmin⟩ := least_of_map_begin hs hbeg
  have hlowEnd : lowest < keyEnd := lt_of_le_of_lt hkb hke
  -- the erasure
  have hr1 : erase_range y.2.1 b.2.1 y.2.2 =
      some (y.2.1.filter (fun e => !(in_range b.2.1 y.2.2 e.1)), y.2.2) := by
    simp [erase_range, hy4, hy5, hy6]
  have hF1 : keys_increasing (y.2.1.filter (fun e => !(in_range b.2.1 y.2.2 e.1))) :=
    keys_increasing_filter hy1 _
  have hF2 : ∀ z ∈ y.2.1.filter (fun e => !(in_range b.2.1 y.2.2 e.1)), lowest ≤ z.1 :=
    fun z hz => hmin z (hy2 z (List.mem_filter.1 hz).1)
  have hFv : valid (y.2.1.filter (fun e => !(in_range b.2.1 y.2.2 e.1)), y.2.2).1
      (y.2.1.filter (fun e => !(in_range b.2.1 y.2.2 e.1)), y.2.2).2 = true := by
    show valid _ y.2.2 = true
    cases hit : y.2.2 with
    | none => rfl
    | some k2 =>
      rw [hit] at hy4
      obtain ⟨z, hz, hzk⟩ := valid_iff.1 hy4
      refine valid_iff.2 ⟨z, List.mem_filter.2 ⟨hz, ?_⟩, hzk⟩
      simp [in_range, it_le, hzk]
  -- the three optional insertions
  obtain ⟨r2, h2, h2l, h2v⟩ := optional_insert b.1 _ b.2.2 hFv
  obtain ⟨r3, h3, h3l, h3v⟩ := optional_insert insertMid r2 (keyBegin, val) h2v
  obtain ⟨r4, h4, h4l, _⟩ := optional_insert y.1 r3 x.2 h3v
  refine ⟨{ m_map := r4.1 }, ?_, ?_, ?_⟩
  · rw [assign_two_splice_eq, hr1, Option.some_bind, h2, Option.some_bind, h3,
      Option.some_bind, h4, Option.some_bind]
  · exact optional_insert_sorted h4l
      (optional_insert_sorted h3l (optional_insert_sorted h2l hF1))
  · have hsorted := optional_insert_sorted h4l
      (optional_insert_sorted h3l (optional_insert_sorted h2l hF1))
    have hlow : ∀ z ∈ r4.1, lowest ≤ z.1 := by
      refine optional_insert_lower h4l (optional_insert_lower h3l
        (optional_insert_lower h2l hF2 ?_) ?_) ?_
      · intro hb
        exact hmin _ (hb4 hb).1
      · intro _
        exact hkb
      · intro hy
        rw [hx (hy8 hy)]
        exact le_of_lt hlowEnd
    refine map_begin_of_least hsorted ?_ hlow
    -- the sentinel key is kept or inserted again
    by_cases hin : in_range b.2.1 y.2.2 s0.1 = true
    · have hit : b.2.1 = map_begin l := by
        simp only [in_range, Bool.and_eq_true] at hin
        cases hb1 : b.2.1 with
        | none => simp [hb1, it_le] at hin
        | some k1 =>
          rw [hb1] at hy5
          obtain ⟨z, hz, hzk⟩ := valid_iff.1 hy5
          have h1 : lowest ≤ k1 := hzk ▸ hmin z (hy2 z hz)
          have h2 : k1 ≤ lowest := by
            have := hin.1
            simp only [hb1, it_le, decide_eq_true_eq] at this
            exact hs0k ▸ this
          rw [hbeg, le_antisymm h2 h1]
      cases hb1 : b.1 with
      | true =>
        have hkey : b.2.2.1 = lowest := by
          have := (hb4 hb1).2
          rw [hit, hbeg] at this
          exact (Option.some.inj this).symm
        rw [hb1] at h2l
        have := optional_insert_adds h2l
        rw [hkey] at this
        exact optional_insert_keeps h4l (optional_insert_keeps h3l this)
      | false =>
        have hkey : keyBegin = lowest := hb5 hb1 hit
        have hmid : insertMid = true := him hb1 hit
        rw [hmid] at h3l
        have := optional_insert_adds h3l
        simp only [hkey] at this
        exact optional_insert_keeps h4l this
    · have hsF : ∃ z ∈ y.2.1.filter (fun e => !(in_range b.2.1 y.2.2 e.1)), z.1 = lowest :=
        ⟨s0, List.mem_filter.2 ⟨hy3 s0 hs0 (hs0k ▸ hlowEnd), by simpa using hin⟩, hs0k⟩
      exact optional_insert_keeps h4l (optional_insert_keeps h3l
        (optional_insert_keeps h2l hsF))

end SecondAttempt

namespace SecondAttempt
open StdMap
variable {K V : Type} [LinearOrder K]

/-- One call of `assign_two` with `keyBegin` not below the sentinel key is defined and
keeps the sentinel. -/
theorem assign_two_keeps_sentinel [DecidableEq V] (value_init : K × V)
    {m : interval_map K V} {lowest : K} (hI : m.has_sentinel lowest) (keyBegin keyEnd : K)
    (val : V) (hkb : lowest ≤ keyBegin) :
    ∃ m1, m.assign_two value_init keyBegin keyEnd val = some m1 ∧ m1.has_sentinel lowest := by
  rw [assign_two_eq_stages]
  by_cases h : keyBegin < keyEnd
  · rw [if_neg (not_not.2 h)]
    obtain ⟨b, hb, hb1, hb2, hb3, hb4, hb5⟩ := assign_two_begin_spec value_init hI hkb
    obtain ⟨x, hx, hx1⟩ := assign_two_end_spec value_init hI (lt_of_le_of_lt hkb h)
    obtain ⟨im, him, him1⟩ := assign_two_mid_spec hI b val hb1
    obtain ⟨y, hy, hy1, hy2, hy3, hy4, hy5, hy6, _, hy8⟩ :=
      assign_two_conflicts_spec hI h b x im val hb1 hb2 hb3
    obtain ⟨m1, hm1, hI1⟩ := assign_two_splice_spec hI.1 hI.2 hkb h b x im y val hb4 hb5 hx1
      him1 hy1 hy2 hy3 hy4 hy5 hy6 hy8
    refine ⟨m1, ?_, hI1⟩
    rw [hb, Option.some_bind, hx, Option.some_bind, him, Option.some_bind, hy,
      Option.some_bind, hm1]
  · rw [if_pos h]
    exact ⟨m, rfl, hI⟩

theorem ctor_has_sentinel (lowest : K) (val : V) :
    (interval_map.ctor lowest val : interval_map K V).has_sentinel lowest := by
  simp [interval_map.has_sentinel, interval_map.ctor, insert_node, keys_increasing, map_begin]

theorem assign_two_all_keeps_sentinel [DecidableEq V] (value_init : K × V) (lowest : K)
    (calls : List (K × K × V)) :
    ∀ {m : interval_map K V}, m.has_sentinel lowest →
      (∀ c ∈ calls, lowest ≤ c.1 ∧ lowest ≤ c.2.1) →
      ∃ m1, m.assign_two_all value_init calls = some m1 ∧ m1.has_sentinel lowest := by
  induction calls with
  | nil =>
    intro m hI _
    exact ⟨m, rfl, hI⟩
  | cons c cs ih =>
    intro m hI hk
    obtain ⟨m1, h1, hI1⟩ :=
      assign_two_keeps_sentinel value_init hI c.1 c.2.1 c.2.2 (hk c (List.mem_cons_self _ _)).1
    obtain ⟨m2, h2, hI2⟩ := ih hI1 (fun d hd => hk d (List.mem_cons_of_mem _ hd))
    exact ⟨m2, by simp [interval_map.assign_two_all, h1, h2], hI2⟩

/-- On a map with the sentinel, `lower_bound(keyEnd)` of a non-empty range is not
`begin()`, and the step back from it is defined. -/
theorem lower_bound_end_has_prev {m : interval_map K V} {lowest : K}
    (hI : m.has_sentinel lowest) {keyEnd : K} (hk : lowest < keyEnd) :
    lower_bound m.m_map keyEnd ≠ map_begin m.m_map ∧
    ∃ p, prev m.m_map (lower_bound m.m_map keyEnd) = some (some p) := by
  obtain ⟨hs, hb⟩ := hI
  obtain ⟨hne, ⟨s0, hs0, hs0k⟩, hmin⟩ := least_of_map_begin hs hb
  cases hE : lower_bound m.m_map keyEnd with
  | none =>
    refine ⟨by rw [hb]; simp, ?_⟩
    obtain ⟨p, hp, _⟩ := prev_end hne
    exact ⟨p, hp⟩
  | some y2 =>
    obtain ⟨hky, e2, he2, he2k⟩ := lower_bound_mem hE
    have hlt : lowest < y2 := lt_of_lt_of_le hk hky
    refine ⟨?_, ?_⟩
    · rw [hb]
      intro hc
      cases hc
      exact lt_irrefl _ hlt
    · obtain ⟨p, hp, _⟩ := prev_some (valid_iff.2 ⟨e2, he2, he2k⟩) hs0 (hs0k ▸ hlt)
      exact ⟨p, hp⟩

end SecondAttempt

/-! ## `CellAssessment.cpp`: when a call of `assign` is defined -/

namespace StdMap

variable {K V : Type} [LinearOrder K]

theorem upper_bound_none {l : List (K × V)} {k : K} (h : upper_bound l k = none) :
    ∀ e ∈ l, e.1 ≤ k := by
  induction l with
  | nil => simp
  | cons x xs ih =>
    rw [upper_bound_cons] at h
    by_cases hk : k < x.1
    · simp [hk] at h
    · simp only [hk, if_false] at h
      intro e he
      rcases List.mem_cons.1 he with rfl | he
      · exact not_lt.1 hk
      · exact ih h e he

/-- In a sorted container `upper_bound(k)` is the least key greater than `k`. -/
theorem upper_bound_least {l : List (K × V)} (hl : keys_increasing l) {k y : K}
    (h : upper_bound l k = some y) {e : K × V} (he : e ∈ l) (hek : k < e.1) : y ≤ e.1 := by
  induction l with
  | nil => simp at he
  | cons x xs ih =>
    rw [keys_increasing_cons] at hl
    rw [upper_bound_cons] at h
    by_cases hk : k < x.1
    · simp only [hk, if_true, Option.some.injEq] at h
      rcases List.mem_cons.1 he with rfl | he
      · exact le_of_eq h.symm
      · exact h ▸ le_of_lt (hl.1 e he)
    · simp only [hk, if_false] at h
      rcases List.mem_cons.1 he with rfl | he
      · exact absurd hek hk
      · exact ih hl.2 h he

theorem it_le_none_last (a : Option K) : it_le a none = true := by
  cases a <;> rfl

/-- The iterators `upper_bound(keyBegin)`, `upper_bound(keyEnd)` form a range. -/
theorem it_le_upper_bound {l : List (K × V)} (hl : keys_increasing l) {k1 k2 : K}
    (h : k1 ≤ k2) : it_le (upper_bound l k1) (upper_bound l k2) = true := by
  cases h2 : upper_bound l k2 with
  | none => exact it_le_none_last _
  | some y2 =>
    obtain ⟨hlt, e2, he2, he2k⟩ := upper_bound_mem h2
    cases h1 : upper_bound l k1 with
    | none =>
      have := upper_bound_none h1 e2 he2
      rw [he2k] at this
      exact absurd (lt_of_le_of_lt h hlt) (not_lt.2 this)
    | some y1 =>
      simp only [it_le, decide_eq_true_eq]
      have := upper_bound_least hl h1 he2 (he2k ▸ lt_of_le_of_lt h hlt)
      rw [he2k] at this
      exact this

end StdMap

namespace CellAssessment

open StdMap

variable {K V : Type} [LinearOrder K]

theorem erases_in_overwrite_iff [DecidableEq V] (m : interval_map K V) (keyBegin keyEnd : K)
    (val : V) :
    m.erases_in_overwrite keyBegin keyEnd val = true ↔
      keyBegin < keyEnd ∧ (∃ e ∈ m.m_map, e.1 = keyBegin ∧ e.2 ≠ val) ∧
        ∃ x ∈ m.m_map, keyBegin < x.1 ∧ x.1 ≤ keyEnd := by
  simp [interval_map.erases_in_overwrite, List.any_eq_true, and_assoc]

/-- Lines 41-46 on a sorted map: they are defined, and the test of line 46 fails exactly
when a breakpoint lies at `keyBegin`. -/
theorem assign_limits_spec {m : interval_map K V} (hs : keys_increasing m.m_map)
    {keyBegin keyEnd : K} (h : keyBegin < keyEnd) :
    ∃ s, m.assign_limits keyBegin keyEnd = some s ∧
      s.itLowerLimit = upper_bound m.m_map keyBegin ∧
      s.itHigherLimit = upper_bound m.m_map keyEnd ∧
      ((s.noNodeAtKeyBegin = true ∧ ∀ e ∈ m.m_map, e.1 ≠ keyBegin) ∨
        (s.noNodeAtKeyBegin = false ∧ ∃ e ∈ m.m_map, e.1 = keyBegin)) := by
  by_cases h1 : upper_bound m.m_map keyBegin = map_begin m.m_map
  · refine ⟨{ itLowerLimit := upper_bound m.m_map keyBegin, itLowerLimitSame := map_end,
              itHigherLimit := upper_bound m.m_map keyEnd, noNodeAtKeyBegin := true },
      by simp [interval_map.assign_limits, h1], rfl, rfl, Or.inl ⟨rfl, ?_⟩⟩
    intro e he hc
    exact (upper_bound_eq_begin_iff hs keyBegin).1 h1 e he (le_of_eq hc)
  · obtain ⟨e, he, hek, hmax⟩ := exists_greatest_le hs (exists_le_of_upper_bound_ne_begin hs h1)
    have hp := prev_upper_bound_of_greatest hs he hek hmax
    have h3 : ¬ upper_bound m.m_map keyEnd = map_begin m.m_map := by
      intro hc
      exact (upper_bound_eq_begin_iff hs keyEnd).1 hc e he (le_trans hek (le_of_lt h))
    have hd := deref_of_mem hs he
    by_cases h4 : e.1 < keyBegin
    · refine ⟨{ itLowerLimit := upper_bound m.m_map keyBegin, itLowerLimitSame := some e.1,
                itHigherLimit := upper_bound m.m_map keyEnd, noNodeAtKeyBegin := true },
        by simp [interval_map.assign_limits, h1, hp, h3, map_end, hd, h4], rfl, rfl,
        Or.inl ⟨rfl, ?_⟩⟩
      intro x hx hc
      exact absurd (lt_of_le_of_lt (hmax x hx (le_of_eq hc)) h4) (by rw [hc]; exact lt_irrefl _)
    · exact ⟨{ itLowerLimit := upper_bound m.m_map keyBegin, itLowerLimitSame := some e.1,
               itHigherLimit := upper_bound m.m_map keyEnd, noNodeAtKeyBegin := false },
        by simp [interval_map.assign_limits, h1, hp, h3, map_end, hd, h4], rfl, rfl,
        Or.inr ⟨rfl, e, he, le_antisymm hek (not_lt.1 h4)⟩⟩

/-- Lines 47-51 are defined on every map. -/
theorem assign_if_branch_defined [DecidableEq V] {m : interval_map K V} {s : assign_locals K}
    (keyBegin keyEnd : K) (val : V)
    (hL : s.itLowerLimit = upper_bound m.m_map keyBegin)
    (hH : s.itHigherLimit = upper_bound m.m_map keyEnd) :
    ∃ m1, m.assign_if_branch s keyBegin keyEnd val = some m1 := by
  by_cases hv : val = m.m_valBegin
  · exact ⟨m, by simp [interval_map.assign_if_branch, hv]⟩
  · have hi1 := insert_of_valid (hL ▸ valid_upper_bound m.m_map keyBegin) (keyBegin, val)
    have hvalid2 : valid (insert_node m.m_map (keyBegin, val)) s.itHigherLimit = true := by
      rw [hH]
      cases hU : upper_bound m.m_map keyEnd with
      | none => rfl
      | some y =>
        obtain ⟨_, e, he, hey⟩ := upper_bound_mem hU
        exact valid_iff.2 ⟨e, mem_insert_node_of_mem _ he, hey⟩
    have hi2 := insert_of_valid hvalid2 (keyEnd, m.m_valBegin)
    cases hit : s.itHigherLimit with
    | none =>
      rw [hit] at hi2
      exact ⟨interval_map.mk m.m_valBegin
          (insert_node (insert_node m.m_map (keyBegin, val)) (keyEnd, m.m_valBegin)),
        by simp [interval_map.assign_if_branch, hv, hi1, hit, map_end, hi2]⟩
    | some y =>
      rw [hit] at hvalid2 hi2
      obtain ⟨e, hde, _, _⟩ := deref_of_valid hvalid2
      by_cases hk : e.1 = keyEnd
      · exact ⟨interval_map.mk m.m_valBegin (insert_node m.m_map (keyBegin, val)),
          by simp [interval_map.assign_if_branch, hv, hi1, hit, map_end, hde, hk]⟩
      · exact ⟨interval_map.mk m.m_valBegin
            (insert_node (insert_node m.m_map (keyBegin, val)) (keyEnd, m.m_valBegin)),
          by simp [interval_map.assign_if_branch, hv, hi1, hit, map_end, hde, hk, hi2]⟩

end CellAssessment

namespace CellAssessment

open StdMap

variable {K V : Type} [LinearOrder K]

/-- The `erase` of lines 61 and 65 is defined on a sorted map. -/
theorem erase_range_upper_bounds {l : List (K × V)} (hs : keys_increasing l)
    {keyBegin keyEnd : K} (h : keyBegin < keyEnd) :
    erase_range l (upper_bound l keyBegin) (upper_bound l keyEnd) =
      some (l.filter (fun e =>
        !(in_range (upper_bound l keyBegin) (upper_bound l keyEnd) e.1)),
        upper_bound l keyEnd) := by
  simp [erase_range, valid_upper_bound, it_le_upper_bound hs (le_of_lt h)]

/-- A key in `(keyBegin, keyEnd]` lies in the erased range. -/
theorem in_range_of_between {l : List (K × V)} (hs : keys_increasing l)
    {keyBegin keyEnd : K} {x : K × V} (hx : x ∈ l) (h1 : keyBegin < x.1) (h2 : x.1 ≤ keyEnd) :
    in_range (upper_bound l keyBegin) (upper_bound l keyEnd) x.1 = true := by
  have hA : it_le (upper_bound l keyBegin) (some x.1) = true := by
    cases hU : upper_bound l keyBegin with
    | none => exact absurd h1 (not_lt.2 (upper_bound_none hU x hx))
    | some y =>
      simp only [it_le, decide_eq_true_eq]
      exact upper_bound_least hs hU hx h1
  have hB : it_le (upper_bound l keyEnd) (some x.1) = false := by
    cases hU : upper_bound l keyEnd with
    | none => rfl
    | some y =>
      simp only [it_le, decide_eq_false_iff_not, not_le]
      exact lt_of_le_of_lt h2 (upper_bound_mem hU).1
  simp [in_range, hA, hB]

/-- A key outside `(keyBegin, keyEnd]` does not lie in the erased range. -/
theorem in_range_of_not_between {l : List (K × V)} (hs : keys_increasing l)
    {keyBegin keyEnd : K} {x : K × V} (hx : x ∈ l) (h : ¬ (keyBegin < x.1 ∧ x.1 ≤ keyEnd)) :
    in_range (upper_bound l keyBegin) (upper_bound l keyEnd) x.1 = false := by
  by_cases h1 : keyBegin < x.1
  · have h2 : keyEnd < x.1 := not_le.1 (fun hc => h ⟨h1, hc⟩)
    have hB : it_le (upper_bound l keyEnd) (some x.1) = true := by
      cases hU : upper_bound l keyEnd with
      | none => exact absurd h2 (not_lt.2 (upper_bound_none hU x hx))
      | some y =>
        simp only [it_le, decide_eq_true_eq]
        exact upper_bound_least hs hU hx h2
    simp [in_range, hB]
  · have hA : it_le (upper_bound l keyBegin) (some x.1) = false := by
      cases hU : upper_bound l keyBegin with
      | none => rfl
      | some y =>
        simp only [it_le, decide_eq_false_iff_not, not_le]
        exact lt_of_le_of_lt (not_lt.1 h1) (upper_bound_mem hU).1
    simp [in_range, hA]

/-- Lines 54-69 on a sorted map with a breakpoint at `keyBegin`: they are defined unless
the overwrite branch erases a node. -/
theorem assign_else_branch_defined [DecidableEq V] {m : interval_map K V}
    (hs : keys_increasing m.m_map) {keyBegin keyEnd : K} (h : keyBegin < keyEnd)
    {s : assign_locals K} (hl : m.assign_limits keyBegin keyEnd = some s)
    (ht : s.noNodeAtKeyBegin = false) (val : V)
    (hno : ¬ ((∃ e ∈ m.m_map, e.1 = keyBegin ∧ e.2 ≠ val) ∧
      ∃ x ∈ m.m_map, keyBegin < x.1 ∧ x.1 ≤ keyEnd)) :
    ∃ m1, m.assign_else_branch s keyBegin keyEnd val = some m1 := by
  obtain ⟨hL, hH, hne, hsame, e0, he0, hk0⟩ := assign_limits_else hs hl ht
  obtain ⟨eE, heE, hEk, hEmax⟩ :=
    exists_greatest_le hs (exists_le_of_upper_bound_ne_begin hs hne)
  have hp := prev_upper_bound_of_greatest hs heE hEk hEmax
  have hd0 : deref m.m_map (some keyBegin) = some e0 := hk0 ▸ deref_of_mem hs he0
  have hdE := deref_of_mem hs heE
  have hrange := erase_range_upper_bounds hs h
  by_cases hv : e0.2 = val
  · by_cases hek : eE.1 = keyEnd
    · have hdE1 : deref m.m_map (some keyEnd) = some eE := hek ▸ hdE
      have hp1 : prev m.m_map (upper_bound m.m_map keyEnd) = some (some keyEnd) := hek ▸ hp
      by_cases hb : eE.2 = m.m_valBegin
      · exact ⟨interval_map.mk m.m_valBegin (m.m_map.filter (fun e =>
            !(in_range (upper_bound m.m_map keyBegin) (upper_bound m.m_map keyEnd) e.1))),
          by simp [interval_map.assign_else_branch, hL, hH, hsame, hp1, hd0, hv, hdE1, hek, hb,
            hrange]⟩
      · have hset : set_second m.m_map (some keyEnd) m.m_valBegin =
            some (m.m_map.map (fun e => if e.1 = keyEnd then (e.1, m.m_valBegin) else e)) := by
          simp only [set_second, valid_iff.2 ⟨eE, heE, hek⟩, if_true]
        exact ⟨interval_map.mk m.m_valBegin
            (m.m_map.map (fun e => if e.1 = keyEnd then (e.1, m.m_valBegin) else e)),
          by simp [interval_map.assign_else_branch, hL, hH, hsame, hp1, hd0, hv, hdE1, hek, hb,
            hset]⟩
    · exact ⟨m, by
        simp [interval_map.assign_else_branch, hL, hH, hsame, hp, hd0, hv, hdE, hek]⟩
  · have hnone : ¬ ∃ x ∈ m.m_map, keyBegin < x.1 ∧ x.1 ≤ keyEnd :=
      fun hc => hno ⟨⟨e0, he0, hk0, hv⟩, hc⟩
    have hF : m.m_map.filter (fun e =>
        !(in_range (upper_bound m.m_map keyBegin) (upper_bound m.m_map keyEnd) e.1)) =
        m.m_map := by
      rw [List.filter_eq_self]
      intro x hx
      rw [in_range_of_not_between hs hx (fun hc => hnone ⟨x, hx, hc⟩)]
      rfl
    rw [hF] at hrange
    have hEkey : eE.1 = keyBegin := by
      refine le_antisymm ?_ (hk0 ▸ hEmax e0 he0 (hk0 ▸ le_of_lt h))
      by_contra hc
      exact hnone ⟨eE, heE, not_le.1 hc, hEk⟩
    have hi1 : StdMap.insert m.m_map (upper_bound m.m_map keyBegin) (keyBegin, val) =
        some (m.m_map, some keyBegin) := by
      rw [insert_of_valid (valid_upper_bound _ _), insert_node_of_key_mem hs he0 hk0]
    have hi2 := insert_of_valid (valid_upper_bound m.m_map keyEnd) (keyEnd, eE.2)
    have hne2 : ¬ eE.1 = keyEnd := by
      rw [hEkey]
      exact ne_of_lt h
    exact ⟨interval_map.mk m.m_valBegin (insert_node m.m_map (keyEnd, eE.2)),
      by simp [interval_map.assign_else_branch, hL, hH, hsame, hp, hd0, hv, hdE, hrange, hi1,
        hne2, hi2]⟩

/-- Lines 54-69 on a sorted map: when the overwrite branch erases a node, line 66 passes
the iterator of an erased node to `insert`, and the call has no defined outcome. -/
theorem assign_else_branch_undefined [DecidableEq V] {m : interval_map K V}
    (hs : keys_increasing m.m_map) {keyBegin keyEnd : K} (h : keyBegin < keyEnd)
    {s : assign_locals K} (hl : m.assign_limits keyBegin keyEnd = some s)
    (ht : s.noNodeAtKeyBegin = false) (val : V)
    (hv : ∃ e ∈ m.m_map, e.1 = keyBegin ∧ e.2 ≠ val)
    (hx : ∃ x ∈ m.m_map, keyBegin < x.1 ∧ x.1 ≤ keyEnd) :
    m.assign_else_branch s keyBegin keyEnd val = none := by
  obtain ⟨hL, hH, hne, hsame, _, _, _⟩ := assign_limits_else hs hl ht
  obtain ⟨e0, he0, hk0, hv0⟩ := hv
  obtain ⟨x, hxl, hx1, hx2⟩ := hx
  obtain ⟨eE, heE, hEk, hEmax⟩ :=
    exists_greatest_le hs (exists_le_of_upper_bound_ne_begin hs hne)
  have hp := prev_upper_bound_of_greatest hs heE hEk hEmax
  have hd0 : deref m.m_map (some keyBegin) = some e0 := hk0 ▸ deref_of_mem hs he0
  have hrange := erase_range_upper_bounds hs h
  cases hU : upper_bound m.m_map keyBegin with
  | none => exact absurd hx1 (not_lt.2 (upper_bound_none hU x hxl))
  | some y =>
    obtain ⟨hky, ey, hey, heyk⟩ := upper_bound_mem hU
    have hy2 : y ≤ keyEnd := le_trans (upper_bound_least hs hU hxl hx1) hx2
    have hinv : valid (m.m_map.filter (fun e =>
        !(in_range (upper_bound m.m_map keyBegin) (upper_bound m.m_map keyEnd) e.1)))
        (some y) = false := by
      cases hval : valid (m.m_map.filter (fun e =>
        !(in_range (upper_bound m.m_map keyBegin) (upper_bound m.m_map keyEnd) e.1)))
        (some y) with
      | false => rfl
      | true =>
        obtain ⟨z, hz, hzk⟩ := valid_iff.1 hval
        obtain ⟨hzl, hzin⟩ := List.mem_filter.1 hz
        have := in_range_of_between hs hzl (hzk ▸ hky) (hzk ▸ hy2)
        rw [this] at hzin
        simp at hzin
    rw [hU] at hrange hL
    have hi1 : StdMap.insert (m.m_map.filter (fun e =>
        !(in_range (some y) (upper_bound m.m_map keyEnd) e.1))) (some y) (keyBegin, val) =
        none := by
      rw [hU] at hinv
      simp [StdMap.insert, hinv]
    simp [interval_map.assign_else_branch, hL, hH, hsame, hp, hd0, hv0, hrange, hi1]

/-- One call of `assign` on a sorted map is defined, and leaves a sorted map, unless it
erases nodes in its overwrite branch. -/
theorem assign_of_not_erases [DecidableEq V] {m : interval_map K V}
    (hs : keys_increasing m.m_map) (keyBegin keyEnd : K) (val : V)
    (hno : m.erases_in_overwrite keyBegin keyEnd val = false) :
    ∃ m1, m.assign keyBegin keyEnd val = some m1 ∧ keys_increasing m1.m_map := by
  have hdef : ∃ m1, m.assign keyBegin keyEnd val = some m1 := by
    rw [assign_eq_branches]
    by_cases h : keyBegin < keyEnd
    · rw [if_neg (not_not.2 h)]
      obtain ⟨s, hl, hL, hH, ht⟩ := assign_limits_spec hs h
      rw [hl, Option.some_bind]
      rcases ht with ⟨ht, _⟩ | ⟨ht, _⟩
      · rw [ht]
        exact assign_if_branch_defined keyBegin keyEnd val hL hH
      · rw [ht]
        refine assign_else_branch_defined hs h hl ht val ?_
        intro hc
        have := (erases_in_overwrite_iff m keyBegin keyEnd val).2 ⟨h, hc.1, hc.2⟩
        rw [hno] at this
        cases this
    · rw [if_pos h]
      exact ⟨m, rfl⟩
  obtain ⟨m1, h1⟩ := hdef
  exact ⟨m1, h1, assign_sorted hs h1⟩

/-- One call of `assign` on a sorted map that erases nodes in its overwrite branch has no
defined outcome. -/
theorem assign_of_erases [DecidableEq V] {m : interval_map K V}
    (hs : keys_increasing m.m_map) (keyBegin keyEnd : K) (val : V)
    (hyes : m.erases_in_overwrite keyBegin keyEnd val = true) :
    m.assign keyBegin keyEnd val = none := by
  obtain ⟨h, hv, hx⟩ := (erases_in_overwrite_iff m keyBegin keyEnd val).1 hyes
  rw [assign_eq_branches, if_neg (not_not.2 h)]
  obtain ⟨s, hl, _, _, ht⟩ := assign_limits_spec hs h
  rw [hl, Option.some_bind]
  rcases ht with ⟨_, ht⟩ | ⟨ht, _⟩
  · obtain ⟨e, he, hek, _⟩ := hv
    exact absurd hek (ht e he)
  · rw [ht]
    exact assign_else_branch_undefined hs h hl ht val hv hx

/-- A sequence with a call that erases nodes in its overwrite branch has no defined
outcome. -/
theorem assign_all_of_erases [DecidableEq V] (calls : List (K × K × V)) :
    ∀ {m : interval_map K V}, keys_increasing m.m_map →
      m.erases_in_overwrite_all calls = true → m.assign_all calls = none := by
  induction calls with
  | nil =>
    intro m _ h
    simp [interval_map.erases_in_overwrite_all] at h
  | cons c cs ih =>
    intro m hs h
    simp only [interval_map.erases_in_overwrite_all, Bool.or_eq_true] at h
    cases hc : m.erases_in_overwrite c.1 c.2.1 c.2.2 with
    | true => simp [interval_map.assign_all, assign_of_erases hs c.1 c.2.1 c.2.2 hc]
    | false =>
      obtain ⟨m1, h1, hs1⟩ := assign_of_not_erases hs c.1 c.2.1 c.2.2 hc
      rw [hc, h1] at h
      have h2 : m1.erases_in_overwrite_all cs = true := by simpa using h
      simp [interval_map.assign_all, h1, ih hs1 h2]

end CellAssessment

/-! ## The claims about `interval_map`, continued -/

section ClaimsContinued

open StdMap CellAssessment

variable {K V : Type} [LinearOrder K]

/-- Claim C11, evaluated on the code: assigning the background back does not empty the
map.  On a fresh object with background `0`, `assign(5, 10, 1)` gives the breakpoints
`(5, 1), (10, 0)`.  The call `assign(5, 10, 0)` then finds the breakpoint at `keyBegin`
with another value, so it runs lines 64-69: `erase(itLowerLimit, itHigherLimit)` removes
the node with key `10`, which is the node `itLowerLimit` designates, and the next
statement passes `itLowerLimit` to `insert`: the call has no defined outcome. -/
theorem C11_assign_background_back_is_undefined :
    (interval_map.ctor 0 : interval_map Int Int).assign 5 10 1 =
      some (interval_map.mk 0 [(5, 1), (10, 0)]) ∧
    (interval_map.mk (0 : Int) [((5 : Int), 1), (10, 0)]).assign_limits 5 10 =
      some { itLowerLimit := some 10, itLowerLimitSame := some 5, itHigherLimit := none,
             noNodeAtKeyBegin := false } ∧
    erase_range [((5 : Int), (1 : Int)), (10, 0)] (some 10) none = some ([(5, 1)], none) ∧
    valid [((5 : Int), (1 : Int))] (some 10) = false ∧
    (interval_map.mk (0 : Int) [((5 : Int), 1), (10, 0)]).assign 5 10 0 = none ∧
    (interval_map.ctor 0 : interval_map Int Int).assign_all [(5, 10, 1), (5, 10, 0)] = none := by
  decide

/-- Claim C12, evaluated on the code: a breakpoint at `keyBegin` keeps its old value.  On
the state with background `A` and breakpoints `(1, B), (3, A)`, `assign(1, 2, C)` erases
nothing, calls `insert` with `(1, C)`, which leaves the present node `(1, B)` as it is,
and inserts `(2, B)`: the breakpoint with key `1` is still there, once, with value `B`
instead of `C`. -/
theorem C12_breakpoint_at_keyBegin_keeps_old_value :
    keys_increasing (interval_map.mk 'A' [((1 : Int), 'B'), (3, 'A')]).m_map ∧
    (interval_map.mk 'A' [((1 : Int), 'B'), (3, 'A')]).canonical ∧
    (interval_map.mk 'A' [((1 : Int), 'B'), (3, 'A')]).assign 1 2 'C' =
      some (interval_map.mk 'A' [(1, 'B'), (2, 'B'), (3, 'A')]) ∧
    deref [((1 : Int), 'B'), (2, 'B'), (3, 'A')] (some 1) = some (1, 'B') ∧
    (interval_map.mk 'A' [((1 : Int), 'B'), (2, 'B'), (3, 'A')]).operator_subscript 1
      = some 'B' := by
  decide

/-- Claim C13: the constructor `interval_map(a)` leaves an empty breakpoint collection
and `m_valBegin == a`, so `operator[](k)` returns `a` for every key `k`. -/
theorem C13_constructor (a : V) (k : K) :
    (interval_map.ctor a : interval_map K V).m_map = [] ∧
    (interval_map.ctor a : interval_map K V).m_valBegin = a ∧
    (interval_map.ctor a : interval_map K V).operator_subscript k = some a := by
  refine ⟨rfl, rfl, ?_⟩
  exact subscript_of_none (interval_map.ctor a) k (by simp [interval_map.ctor, keys_increasing])
    (by simp [interval_map.ctor])

/-- Claim C15, evaluated on the code: `assign_two` changes a value outside the interval.
On `interval_map('A')` of `SecondAttempt.cpp` (sentinel key `-2147483648`),
`assign_two(1, 3, 'B')` finds `lower_bound(3) == end()`, records no entry for `keyEnd`
and ends with the entries `(-2147483648, A), (1, B)`: the keys `0, 1, 2, 3` read
`A, B, B, B`, so key `3`, outside `[1, 3)`, changes from `A` to `B`. -/
theorem C15_assign_two_changes_value_at_keyEnd :
    (SecondAttempt.interval_map.ctor (-2147483648 : Int) 'A').assign_two (0, Char.ofNat 0)
        1 3 'B' =
      some (SecondAttempt.interval_map.mk [(-2147483648, 'A'), (1, 'B')]) ∧
    (SecondAttempt.interval_map.ctor (-2147483648 : Int) 'A').value_at 3 = some 'A' ∧
    ([0, 1, 2, 3] : List Int).map
        (SecondAttempt.interval_map.mk [((-2147483648 : Int), 'A'), (1, 'B')]).value_at =
      [some 'A', some 'B', some 'B', some 'B'] := by
  decide

/-- Claim C16, evaluated on the code: superseded breakpoints stay.  The state with
background `A` and breakpoints `(2, B), (4, A)` has strictly increasing keys and is
canonical; `assign(1, 6, C)` finds no breakpoint at key `1`, inserts `(1, C)` and
`(6, A)` and erases nothing, so the breakpoints with keys `2` and `4`, strictly between
`keyBegin` and `keyEnd`, are still in the collection. -/
theorem C16_assign_keeps_superseded_breakpoints :
    keys_increasing (interval_map.mk 'A' [((2 : Int), 'B'), (4, 'A')]).m_map ∧
    (interval_map.mk 'A' [((2 : Int), 'B'), (4, 'A')]).canonical ∧
    (interval_map.mk 'A' [((2 : Int), 'B'), (4, 'A')]).assign 1 6 'C' =
      some (interval_map.mk 'A' [(1, 'C'), (2, 'B'), (4, 'A'), (6, 'A')]) ∧
    (((2 : Int), 'B') ∈ (interval_map.mk 'A' [((1 : Int), 'C'), (2, 'B'), (4, 'A'), (6, 'A')]).m_map
      ∧ (1 : Int) < 2 ∧ (2 : Int) < 6) := by
  decide

/-- Claim C18, evaluated on the code: `assign_two` does not keep consecutive entries
distinct.  On `interval_map('A')` of `SecondAttempt.cpp`, the calls
`assign_two(5, 7, 'B')`, `assign_two(7, 9, 'A')`, `assign_two(5, 7, 'A')` end with the
entries `(-2147483648, A), (7, A)`: in the last call no mid entry is inserted,
`beginHasExtra` is false, and the entry at `keyEnd` is compared with the second component
of the value-initialised `beginExtra` instead of the value in front of the range. -/
theorem C18_assign_two_leaves_equal_neighbours :
    (SecondAttempt.interval_map.ctor (-2147483648 : Int) 'A').assign_two_all (0, Char.ofNat 0)
        [(5, 7, 'B'), (7, 9, 'A'), (5, 7, 'A')] =
      some (SecondAttempt.interval_map.mk [(-2147483648, 'A'), (7, 'A')]) ∧
    SecondAttempt.no_equal_neighbours [((-2147483648 : Int), 'A'), (7, 'A')] = false := by
  decide

/-- Claim C19, evaluated on the code: the overwrite branch reads an erased breakpoint.
The state with background `A` and breakpoints `(1, B), (3, A)` has strictly increasing
keys; `assign(1, 3, C)` finds the breakpoint at `keyBegin` with value `B`, so it runs
lines 64-69 with `itLowerLimit` and `itEnd` both at the node with key `3`; that key lies
in the range removed by `erase(itLowerLimit, itHigherLimit)`, after which neither
iterator designates a node of the map, and the call has no defined outcome. -/
theorem C19_overwrite_branch_uses_erased_node :
    keys_increasing (interval_map.mk 'A' [((1 : Int), 'B'), (3, 'A')]).m_map ∧
    (interval_map.mk 'A' [((1 : Int), 'B'), (3, 'A')]).assign_limits 1 3 =
      some { itLowerLimit := some 3, itLowerLimitSame := some 1, itHigherLimit := none,
             noNodeAtKeyBegin := false } ∧
    deref [((1 : Int), 'B'), (3, 'A')] (some 1) = some (1, 'B') ∧
    prev [((1 : Int), 'B'), (3, 'A')] none = some (some 3) ∧
    in_range (some (3 : Int)) none 3 = true ∧
    erase_range [((1 : Int), 'B'), (3, 'A')] (some 3) none = some ([(1, 'B')], none) ∧
    valid [((1 : Int), 'B')] (some 3) = false ∧
    deref [((1 : Int), 'B')] (some 3) = none ∧
    (interval_map.mk 'A' [((1 : Int), 'B'), (3, 'A')]).assign 1 3 'C' = none := by
  decide

/-- Claim C20: in a sorted map, whenever `assign` passes its guard and takes the `else`
branch of line 53, `itHigherLimit = upper_bound(keyEnd)` is not `begin()`, and
`std::prev(itHigherLimit)` at line 54 is defined and designates the breakpoint with the
greatest key at most `keyEnd`, whose key is at least `keyBegin`; and whenever
`operator[]` takes its decrement branch, a breakpoint with key at most `key` exists and
the decrement is defined and leads to the breakpoint whose value is returned. -/
theorem C20_predecessor_steps_defined [DecidableEq V] (m : interval_map K V)
    (keyBegin keyEnd : K) (hs : keys_increasing m.m_map) (h : keyBegin < keyEnd) :
    (∀ s, m.assign_limits keyBegin keyEnd = some s → s.noNodeAtKeyBegin = false →
      (∀ val, m.assign keyBegin keyEnd val = m.assign_else_branch s keyBegin keyEnd val) ∧
      s.itHigherLimit = upper_bound m.m_map keyEnd ∧
      s.itHigherLimit ≠ map_begin m.m_map ∧
      ∃ e ∈ m.m_map, prev m.m_map s.itHigherLimit = some (some e.1) ∧
        deref m.m_map (some e.1) = some e ∧
        e.1 ≤ keyEnd ∧ (∀ x ∈ m.m_map, x.1 ≤ keyEnd → x.1 ≤ e.1) ∧ keyBegin ≤ e.1) ∧
    (∀ key, upper_bound m.m_map key ≠ map_begin m.m_map →
      ∃ e ∈ m.m_map, e.1 ≤ key ∧ (∀ x ∈ m.m_map, x.1 ≤ key → x.1 ≤ e.1) ∧
        prev m.m_map (upper_bound m.m_map key) = some (some e.1) ∧
        deref m.m_map (some e.1) = some e ∧
        m.operator_subscript_place key = some (place.mapped e.1)) := by
  constructor
  · intro s hl ht
    obtain ⟨_, hH, hne, _, e0, he0, hk0⟩ := assign_limits_else hs hl ht
    obtain ⟨e, he, hek, hmax⟩ :=
      exists_greatest_le hs (exists_le_of_upper_bound_ne_begin hs hne)
    refine ⟨?_, hH, by rw [hH]; exact hne, e, he, ?_, deref_of_mem hs he, hek, hmax, ?_⟩
    · intro val
      rw [assign_eq_branches, if_neg (not_not.2 h), hl, Option.some_bind, ht]
      rfl
    · rw [hH]
      exact prev_upper_bound_of_greatest hs he hek hmax
    · rw [← hk0]
      exact hmax e0 he0 (by rw [hk0]; exact le_of_lt h)
  · intro key hne
    obtain ⟨e, he, hek, hmax⟩ :=
      exists_greatest_le hs (exists_le_of_upper_bound_ne_begin hs hne)
    exact ⟨e, he, hek, hmax, prev_upper_bound_of_greatest hs he hek hmax, deref_of_mem hs he,
      subscript_place_of_greatest m key hs he hek hmax⟩

/-- Claim C20 at the state with background `A` and breakpoints `(1, B), (3, A)` and the
call `assign(1, 3, _)`, which takes the `else` branch. -/
theorem C20_predecessor_steps_defined_witness :
    keys_increasing (interval_map.mk 'A' [((1 : Int), 'B'), (3, 'A')]).m_map ∧ (1 : Int) < 3 ∧
    ((∀ s, (interval_map.mk 'A' [((1 : Int), 'B'), (3, 'A')]).assign_limits 1 3 = some s →
        s.noNodeAtKeyBegin = false →
        (∀ val, (interval_map.mk 'A' [((1 : Int), 'B'), (3, 'A')]).assign 1 3 val =
          (interval_map.mk 'A' [((1 : Int), 'B'), (3, 'A')]).assign_else_branch s 1 3 val) ∧
        s.itHigherLimit = upper_bound (interval_map.mk 'A' [((1 : Int), 'B'), (3, 'A')]).m_map 3 ∧
        s.itHigherLimit ≠ map_begin (interval_map.mk 'A' [((1 : Int), 'B'), (3, 'A')]).m_map ∧
        ∃ e ∈ (interval_map.mk 'A' [((1 : Int), 'B'), (3, 'A')]).m_map,
          prev (interval_map.mk 'A' [((1 : Int), 'B'), (3, 'A')]).m_map s.itHigherLimit
            = some (some e.1) ∧
          deref (interval_map.mk 'A' [((1 : Int), 'B'), (3, 'A')]).m_map (some e.1) = some e ∧
          e.1 ≤ 3 ∧
          (∀ x ∈ (interval_map.mk 'A' [((1 : Int), 'B'), (3, 'A')]).m_map, x.1 ≤ 3 → x.1 ≤ e.1) ∧
          1 ≤ e.1) ∧
      (∀ key, upper_bound (interval_map.mk 'A' [((1 : Int), 'B'), (3, 'A')]).m_map key ≠
          map_begin (interval_map.mk 'A' [((1 : Int), 'B'), (3, 'A')]).m_map →
        ∃ e ∈ (interval_map.mk 'A' [((1 : Int), 'B'), (3, 'A')]).m_map, e.1 ≤ key ∧
          (∀ x ∈ (interval_map.mk 'A' [((1 : Int), 'B'), (3, 'A')]).m_map,
            x.1 ≤ key → x.1 ≤ e.1) ∧
          prev (interval_map.mk 'A' [((1 : Int), 'B'), (3, 'A')]).m_map
            (upper_bound (interval_map.mk 'A' [((1 : Int), 'B'), (3, 'A')]).m_map key)
            = some (some e.1) ∧
          deref (interval_map.mk 'A' [((1 : Int), 'B'), (3, 'A')]).m_map (some e.1) = some e ∧
          (interval_map.mk 'A' [((1 : Int), 'B'), (3, 'A')]).operator_subscript_place key
            = some (place.mapped e.1))) :=
  ⟨by decide, by decide,
    C20_predecessor_steps_defined (interval_map.mk 'A' [((1 : Int), 'B'), (3, 'A')]) 1 3
      (by decide) (by decide)⟩

/-- Claim C17: after `interval_map(val)` of `SecondAttempt.cpp` and any finite sequence
of `assign_two` calls whose keys are not below `lowest`, every call is defined, `m_map`
is not empty and its first entry has key `lowest`; consequently, for a call with
`lowest <= keyBegin < keyEnd`, `lower_bound(keyEnd)` is not `begin()` and the step back
of lines 52-53 has an entry to step to. -/
theorem C17_sentinel_invariant [DecidableEq V] (value_init : K × V) (lowest : K) (val : V)
    (calls : List (K × K × V)) (hk : ∀ c ∈ calls, lowest ≤ c.1 ∧ lowest ≤ c.2.1) :
    ∃ m, (SecondAttempt.interval_map.ctor lowest val).assign_two_all value_init calls
        = some m ∧
      m.m_map ≠ [] ∧ map_begin m.m_map = some lowest ∧
      ∀ keyBegin keyEnd : K, lowest ≤ keyBegin → keyBegin < keyEnd →
        lower_bound m.m_map keyEnd ≠ map_begin m.m_map ∧
        ∃ p, prev m.m_map (lower_bound m.m_map keyEnd) = some (some p) := by
  obtain ⟨m, hm, hI⟩ := SecondAttempt.assign_two_all_keeps_sentinel value_init lowest calls
    (SecondAttempt.ctor_has_sentinel lowest val) hk
  refine ⟨m, hm, (least_of_map_begin hI.1 hI.2).1, hI.2, ?_⟩
  intro keyBegin keyEnd h1 h2
  exact SecondAttempt.lower_bound_end_has_prev hI (lt_of_le_of_lt h1 h2)

/-- Claim C17 at `interval_map('A')` with sentinel key `-2147483648` and the calls
`assign_two(5, 7, 'B')`, `assign_two(-2147483648, 6, 'C')`. -/
theorem C17_sentinel_invariant_witness :
    (∀ c ∈ [((5 : Int), (7 : Int), 'B'), (-2147483648, 6, 'C')],
      (-2147483648 : Int) ≤ c.1 ∧ (-2147483648 : Int) ≤ c.2.1) ∧
    ∃ m, (SecondAttempt.interval_map.ctor (-2147483648 : Int) 'A').assign_two_all
          (0, Char.ofNat 0) [(5, 7, 'B'), (-2147483648, 6, 'C')] = some m ∧
      m.m_map ≠ [] ∧ map_begin m.m_map = some (-2147483648) ∧
      ∀ keyBegin keyEnd : Int, -2147483648 ≤ keyBegin → keyBegin < keyEnd →
        lower_bound m.m_map keyEnd ≠ map_begin m.m_map ∧
        ∃ p, prev m.m_map (lower_bound m.m_map keyEnd) = some (some p) :=
  ⟨by decide,
    C17_sentinel_invariant (0, Char.ofNat 0) (-2147483648 : Int) 'A'
      [(5, 7, 'B'), (-2147483648, 6, 'C')] (by decide)⟩

end ClaimsContinued
